import Mathlib

/-!
# Edge detection pipeline (`main.go`): grayscale conversion and gradient magnitude

A shallow embedding of the two pixel transforms of `main.go`:

* `grayscale` (lines 156-181): luma conversion of an NRGBA pixel buffer;
* `processImg` (lines 101-154): the 3x3 two-kernel gradient magnitude stage.

Bytes are natural numbers below 256, buffers are lists of bytes, and a Go
runtime panic (index out of range, integer division by zero) is the value
`none`.

The source computes in `float64`.  Every `float64` value that occurs is a
non-negative dyadic rational, so it is represented exactly by a natural number
counting units of a fixed power of two (`2^-56` for the luma sum, `2^-60` for
the square root).  Each floating-point operation is the exact operation
followed by rounding to 53 significant bits, nearest with ties to even, each
operation rounded on its own (no fused multiply-add).
-/

namespace EdgeDetection

/-! ## float64 rounding on fixed-point naturals -/

/-- Number of low-order bits that must be dropped so that `n` fits in 53
significant bits: the least `s` with `n / 2^s < 2^53`.  The first argument is
recursion fuel; `excessBits n n` always has enough. -/
def excessBits : Nat → Nat → Nat
  | 0, _ => 0
  | fuel + 1, n => if n < 2 ^ 53 then 0 else excessBits fuel (n / 2) + 1

/-- Rounding of a positive quantity to 53 significant bits, nearest, ties to
even.  The quantity is `n` plus a fraction in `[0,1)` that is zero exactly when
`exact` is true (a sticky flag). -/
def roundBits (exact : Bool) (n : Nat) : Nat :=
  let s := excessBits n n
  let q := n / 2 ^ s
  let r := n % 2 ^ s
  if 2 * r < 2 ^ s then q * 2 ^ s
  else if 2 * r = 2 ^ s ∧ exact = true ∧ q % 2 = 0 then q * 2 ^ s
  else (q + 1) * 2 ^ s

/-- The `float64` nearest to the integer quantity `n` (in any fixed unit). -/
def roundNE53 (n : Nat) : Nat := roundBits true n

/-- The `float64` constant `0.299`, in units of `2^-56`
(`5386305154335113 / 2^54`). -/
def c299 : Nat := 5386305154335113 * 4

/-- The `float64` constant `0.587`, in units of `2^-56`
(`2643612981266481 / 2^52`). -/
def c587 : Nat := 2643612981266481 * 16

/-- The `float64` constant `0.114`, in units of `2^-56`
(`8214565720323785 / 2^56`). -/
def c114 : Nat := 8214565720323785

/-- Line 165: `0.299*float64(r) + 0.587*float64(g) + 0.114*float64(b)`, in
units of `2^-56`; three rounded products, two rounded sums, left to right.
Every intermediate value is a multiple of `2^-56`, so the sums and products
below are exact before each rounding. -/
def luma (r g b : Nat) : Nat :=
  roundNE53 (roundNE53 (roundNE53 (c299 * r) + roundNE53 (c587 * g)) + roundNE53 (c114 * b))

/-- Line 167: `byte(gray)`: truncation toward zero of a `float64` held in
units of `2^-56`, keeping the low eight bits. -/
def grayByte (r g b : Nat) : Nat := luma r g b / 2 ^ 56 % 256

/-- The function `math.Sqrt` on a non-negative integer argument, in units of
`2^-60`: the root is computed to 60 fractional bits with a sticky flag and then
rounded to 53 significant bits (correct rounding, as IEEE 754 requires of
square root). -/
def sqrtF64 (n : Nat) : Nat :=
  let t := Nat.sqrt (n * 4 ^ 60)
  roundBits (decide (t * t = n * 4 ^ 60)) t

/-! ## Pixel buffers -/

/-- The type `*image.NRGBA` as `image.NewNRGBA(image.Rect(0, 0, w, h))` builds
it (lines 96 and 178): the rectangle starts at the origin and the stride is
four bytes per pixel of a row. -/
structure NRGBA where
  /-- The field `Pix`: the bytes, row-major, four per pixel. -/
  Pix : List Nat
  /-- The value of `Rect.Size().X`. -/
  width : Nat
  /-- The value of `Rect.Size().Y`. -/
  height : Nat
  deriving DecidableEq

/-- The field `Stride` of an image made by `image.NewNRGBA`. -/
def NRGBA.Stride (img : NRGBA) : Nat := 4 * img.width

/-- The method `(*image.NRGBA).PixOffset` for a rectangle at the origin:
`(y-Rect.Min.Y)*Stride + (x-Rect.Min.X)*4`. -/
def NRGBA.PixOffset (img : NRGBA) (x y : Nat) : Nat := y * img.Stride + x * 4

/-- A buffer is well formed when its width is positive, it holds exactly
`4 * width * height` bytes, and every entry is a byte. -/
def WellFormed (img : NRGBA) : Prop :=
  0 < img.width ∧ img.Pix.length = 4 * img.width * img.height ∧ ∀ b ∈ img.Pix, b < 256

instance (img : NRGBA) : Decidable (WellFormed img) := by
  unfold WellFormed
  exact inferInstance

/-- The type `color.RGBA`. -/
structure RGBA where
  R : Nat
  G : Nat
  B : Nat
  A : Nat
  deriving DecidableEq

/-- The type `ImageData` (lines 23-26). -/
structure ImageData where
  ImageContents : List Nat
  ImageWidth : Nat
  deriving DecidableEq

/-- Lines 30-35, `ImageData.Bounds`: the size `(width, height)` of the rectangle
from the origin; `len / 4 / width` panics when the width is zero. -/
def ImageData.Bounds (img : ImageData) : Option (Nat × Nat) :=
  let width := img.ImageWidth
  if width = 0 then none
  else
    let height := img.ImageContents.length / 4 / width
    some (width, height)

/-- Lines 37-41, `ImageData.At`: three indexed reads, alpha always 255. -/
def ImageData.At (img : ImageData) (x y : Nat) : Option RGBA := do
  let point := y * img.ImageWidth + x
  let r ← img.ImageContents[point * 4]?
  let g ← img.ImageContents[point * 4 + 1]?
  let b ← img.ImageContents[point * 4 + 2]?
  pure ⟨r, g, b, 255⟩

/-- The pixel at column `x`, row `y` of a buffer of width `w`, as its four
bytes; a missing byte reads as 0. -/
def pixelAt (buf : List Nat) (w x y : Nat) : List Nat :=
  [buf.getD (4 * (y * w + x)) 0, buf.getD (4 * (y * w + x) + 1) 0,
    buf.getD (4 * (y * w + x) + 2) 0, buf.getD (4 * (y * w + x) + 3) 0]

/-! ## The edge stage (`processImg`) -/

/-- Lines 44-47, the table `horizontal`. -/
def horizontal : List (List Int) :=
  [[-1, 0, 1],
   [-1, 0, 1],
   [-1, 0, 1]]

/-- Lines 49-52, the table `vertical`. -/
def vertical : List (List Int) :=
  [[-1, -1, -1],
   [0, 0, 0],
   [1, 1, 1]]

/-- Constant indexing `k[r][c]` into a 3x3 table. -/
def entry (k : List (List Int)) (r c : Nat) : Int := (k.getD r []).getD c 0

/-- Lines 121-130 and 133-141: the nine products of a table with the nine bytes
read at `idx1 .. idx9`, summed. -/
def weightedSum (k : List (List Int)) (p1 p2 p3 p4 p5 p6 p7 p8 p9 : Nat) : Int :=
  (entry k 0 0 * (p1 : Int)) +
    (entry k 0 1 * (p2 : Int)) +
    (entry k 0 2 * (p3 : Int)) +
    (entry k 1 0 * (p4 : Int)) +
    (entry k 1 1 * (p5 : Int)) +
    (entry k 1 2 * (p6 : Int)) +
    (entry k 2 0 * (p7 : Int)) +
    (entry k 2 1 * (p8 : Int)) +
    (entry k 2 2 * (p9 : Int))

/-- Lines 131 and 142: `int(math.Abs(float64(v)))`; the conversions are exact
for the integers that occur. -/
def absGradient (v : Int) : Nat := v.natAbs

/-- Line 144: `byte(math.Sqrt(math.Pow(h, 2.0) + math.Pow(v, 2.0)))`.  The two
squares and their sum are rounded to `float64`, the root is `sqrtF64` (units of
`2^-60`), and the conversion to `byte` truncates toward zero and keeps the low
eight bits of the integer (the conversion the compiler emits: through a 32-bit
integer, which every root that occurs fits). -/
def magnitude (h v : Nat) : Nat :=
  sqrtF64 (roundNE53 (roundNE53 (h * h) + roundNE53 (v * v))) / 2 ^ 60 % 256

/-- An indexed assignment `buf[i] = v`; out of range is a panic. -/
def store (buf : List Nat) (i v : Nat) : Option (List Nat) :=
  if i < buf.length then some (buf.set i v) else none

/-- Lines 111-148: the body of the inner loop at column `x`, row `y`. -/
def sobelStep (img : NRGBA) (y x : Nat) (newFrame : List Nat) : Option (List Nat) := do
  let idx1 := img.PixOffset (x - 1) (y - 1)
  let idx2 := img.PixOffset x (y - 1)
  let idx3 := img.PixOffset (x + 1) (y - 1)
  let idx4 := img.PixOffset (x - 1) y
  let idx5 := img.PixOffset x y
  let idx6 := img.PixOffset (x + 1) y
  let idx7 := img.PixOffset (x - 1) (y + 1)
  let idx8 := img.PixOffset x (y + 1)
  let idx9 := img.PixOffset (x + 1) (y + 1)
  let p1 ← img.Pix[idx1]?
  let p2 ← img.Pix[idx2]?
  let p3 ← img.Pix[idx3]?
  let p4 ← img.Pix[idx4]?
  let p5 ← img.Pix[idx5]?
  let p6 ← img.Pix[idx6]?
  let p7 ← img.Pix[idx7]?
  let p8 ← img.Pix[idx8]?
  let p9 ← img.Pix[idx9]?
  let horizontalGradient := absGradient (weightedSum horizontal p1 p2 p3 p4 p5 p6 p7 p8 p9)
  let verticalGradient := absGradient (weightedSum vertical p1 p2 p3 p4 p5 p6 p7 p8 p9)
  let mag := magnitude horizontalGradient verticalGradient
  let newFrame ← store newFrame idx1 mag
  let newFrame ← store newFrame (idx1 + 1) mag
  let newFrame ← store newFrame (idx1 + 2) mag
  store newFrame (idx1 + 3) 100

/-- Lines 110-150: the inner loop `for x := 1; x < width-1; x += 1` of row `y`. -/
def sobelRow (img : NRGBA) (newFrame : List Nat) (y : Nat) : Option (List Nat) :=
  (List.range' 1 (img.width - 2)).foldlM (fun nf x => sobelStep img y x nf) newFrame

/-- Lines 108-151: the zeroed buffer `make([]byte, leng)` and the outer loop
`for y := 1; y < height-1; y += 1`. -/
def convolve (img : NRGBA) : Option (List Nat) :=
  (List.range' 1 (img.height - 2)).foldlM (sobelRow img) (List.replicate img.Pix.length 0)

/-- Lines 101-154, `processImg`: the buffer `newFrame` that is wrapped as an
`ImageData` and handed to `jpeg.Encode`, whose first action is the call
`Bounds()`.  File creation and the encoding itself are outside the model. -/
def processImg (img : NRGBA) : Option (List Nat) := do
  let newFrame ← convolve img
  let _ ← (ImageData.mk newFrame img.width).Bounds
  pure newFrame

/-! ## The grayscale stage -/

/-- Lines 165-174: the body of the loop at byte index `i`.  The counters `x`
and `y` are written but never read; of their update only the division
`(x+1) % width`, which panics for a zero width, is kept. -/
def grayStep (img : NRGBA) (newFrame : List Nat) (i : Nat) : Option (List Nat) := do
  let r ← img.Pix[i]?
  let g ← img.Pix[i + 1]?
  let b ← img.Pix[i + 2]?
  let gray := grayByte r g b
  let newFrame := newFrame ++ [gray, gray, gray, 255]
  if img.width = 0 then none else pure newFrame

/-- Lines 161-175: the loop `for i := 0; i < leng; i += 4`, which visits
`i = 4k` for every `k` with `4k < leng`. -/
def grayFrame (img : NRGBA) : Option (List Nat) :=
  (List.range ((img.Pix.length + 3) / 4)).foldlM (fun nf k => grayStep img nf (4 * k)) []

/-- The conversion `color.NRGBAModel.Convert` on a colour of alpha 255, as
`(*image.NRGBA).Set` applies it: the 16-bit channel `c * 0x101` shifted right
by eight, and alpha `0xff`. -/
def nrgbaBytes (c : RGBA) : List Nat :=
  [c.R * 257 / 256 % 256, c.G * 257 / 256 % 256, c.B * 257 / 256 % 256, 255]

/-- Lines 178-179: `draw.Draw(out, out.Bounds(), src, image.Point{0, 0},
draw.Src)` into a fresh `image.NewNRGBA(image.Rect(0, 0, w, h))`: every pixel
of the rectangle, row by row, is `src.At(x, y)` converted to NRGBA. -/
def drawSrc (src : ImageData) (w h : Nat) : Option (List Nat) :=
  (List.range (w * h)).foldlM
    (fun pix p => do
      let c ← src.At (p % w) (p / w)
      pure (pix ++ nrgbaBytes c)) []

/-- Lines 156-181, `grayscale`. -/
def grayscale (img : NRGBA) : Option NRGBA := do
  let newFrame ← grayFrame img
  let newImage : ImageData := ⟨newFrame, img.width⟩
  let b ← newImage.Bounds
  let pix ← drawSrc newImage b.1 b.2
  pure ⟨pix, b.1, b.2⟩

/-! ## Closed forms used to state the results -/

/-- The byte `img.Pix[i]`, read as 0 outside the buffer. -/
def NRGBA.byte (img : NRGBA) (i : Nat) : Nat := img.Pix.getD i 0

/-- The sum `Gx`: the table `horizontal` applied to the R bytes of the 3x3
window centred on column `x`, row `y`. -/
def gx (img : NRGBA) (x y : Nat) : Int :=
  weightedSum horizontal
    (img.byte (img.PixOffset (x - 1) (y - 1))) (img.byte (img.PixOffset x (y - 1)))
    (img.byte (img.PixOffset (x + 1) (y - 1))) (img.byte (img.PixOffset (x - 1) y))
    (img.byte (img.PixOffset x y)) (img.byte (img.PixOffset (x + 1) y))
    (img.byte (img.PixOffset (x - 1) (y + 1))) (img.byte (img.PixOffset x (y + 1)))
    (img.byte (img.PixOffset (x + 1) (y + 1)))

/-- The sum `Gy`: the table `vertical` applied to the same window. -/
def gy (img : NRGBA) (x y : Nat) : Int :=
  weightedSum vertical
    (img.byte (img.PixOffset (x - 1) (y - 1))) (img.byte (img.PixOffset x (y - 1)))
    (img.byte (img.PixOffset (x + 1) (y - 1))) (img.byte (img.PixOffset (x - 1) y))
    (img.byte (img.PixOffset x y)) (img.byte (img.PixOffset (x + 1) y))
    (img.byte (img.PixOffset (x - 1) (y + 1))) (img.byte (img.PixOffset x (y + 1)))
    (img.byte (img.PixOffset (x + 1) (y + 1)))

/-- The byte `mag` that the loop body computes for the window centred on
column `x`, row `y`. -/
def magAt (img : NRGBA) (x y : Nat) : Nat :=
  magnitude (absGradient (gx img x y)) (absGradient (gy img x y))

/-- The buffer after the four assignments of lines 145-148 for the window
centred on column `x`, row `y`. -/
def written (img : NRGBA) (y x : Nat) (nf : List Nat) : List Nat :=
  (((nf.set (img.PixOffset (x - 1) (y - 1)) (magAt img x y)).set
    (img.PixOffset (x - 1) (y - 1) + 1) (magAt img x y)).set
    (img.PixOffset (x - 1) (y - 1) + 2) (magAt img x y)).set
    (img.PixOffset (x - 1) (y - 1) + 3) 100

/-- Byte `i` of the buffer that the edge stage produces: pixel `i / 4` lies in
column `i / 4 % width` and row `i / 4 / width`; it holds the result of the
window centred one column to the right and one row below when that window
exists, and is zero otherwise. -/
def edgeByte (img : NRGBA) (i : Nat) : Nat :=
  if i / 4 % img.width + 2 < img.width ∧ i / 4 / img.width + 2 < img.height then
    if i % 4 = 3 then 100 else magAt img (i / 4 % img.width + 1) (i / 4 / img.width + 1)
  else 0

/-- The whole buffer that the edge stage produces. -/
def edgeFrame (img : NRGBA) : List Nat := (List.range img.Pix.length).map (edgeByte img)

/-- Byte `i` of the buffer that the grayscale stage produces. -/
def grayOut (img : NRGBA) (i : Nat) : Nat :=
  if i % 4 = 3 then 255
  else grayByte (img.byte (4 * (i / 4))) (img.byte (4 * (i / 4) + 1)) (img.byte (4 * (i / 4) + 2))

/-- The whole buffer that the grayscale stage produces. -/
def grayPix (img : NRGBA) : List Nat := (List.range img.Pix.length).map (grayOut img)

/-- The R byte of the pixel at column `x`, row `y`. -/
def NRGBA.red (img : NRGBA) (x y : Nat) : Nat := img.byte (4 * (y * img.width + x))

/-- The image with `k` added to every R, G and B byte and alpha kept. -/
def brighten (k : Int) (img : NRGBA) : NRGBA :=
  ⟨(List.range img.Pix.length).map
    (fun i => if i % 4 = 3 then img.byte i else ((img.byte i : Int) + k).toNat),
    img.width, img.height⟩

/-- The transpose of a `w` x `h` buffer: the `h` x `w` buffer whose pixel at
column `y`, row `x` is the pixel at column `x`, row `y` of `buf`. -/
def transposeBuf (buf : List Nat) (w h : Nat) : List Nat :=
  (List.range buf.length).map
    (fun b => buf.getD (4 * (b / 4 % h * w + b / 4 / h) + b % 4) 0)

/-- The transposed image: width and height exchanged, pixels transposed. -/
def transpose (img : NRGBA) : NRGBA :=
  ⟨transposeBuf img.Pix img.width img.height, img.height, img.width⟩

/-! ## Test images -/

/-- A 3x3 grayscale image whose left and middle columns are black and whose
right column is white. -/
def rightEdge3 : NRGBA :=
  ⟨[0, 0, 0, 255, 0, 0, 0, 255, 255, 255, 255, 255,
    0, 0, 0, 255, 0, 0, 0, 255, 255, 255, 255, 255,
    0, 0, 0, 255, 0, 0, 0, 255, 255, 255, 255, 255], 3, 3⟩

/-- The `w` x `h` grayscale image that is white (255,255,255,255) in column `c`
and black (0,0,0,255) everywhere else. -/
def verticalLine (w h c : Nat) : NRGBA :=
  ⟨(List.range (4 * w * h)).map
    (fun i => if i % 4 = 3 then 255 else if i / 4 % w = c then 255 else 0), w, h⟩

/-- The `w` x `h` image with every pixel `(g, g, g, 255)`. -/
def uniformGray (w h g : Nat) : NRGBA :=
  ⟨(List.range (4 * w * h)).map (fun i => if i % 4 = 3 then 255 else g), w, h⟩

/-! ### Facts about rounding -/

theorem excessBits_spec (fuel : Nat) : ∀ n, n ≤ fuel →
    n < 2 ^ (53 + excessBits fuel n) ∧
      (excessBits fuel n = 0 ∨ 2 ^ (52 + excessBits fuel n) ≤ n) := by
  induction fuel with
  | zero =>
    intro n hn
    have h0 : n = 0 := by omega
    subst h0
    simp [excessBits]
  | succ k ih =>
    intro n hn
    unfold excessBits
    by_cases h : n < 2 ^ 53
    · rw [if_pos h]
      exact ⟨h, Or.inl rfl⟩
    · rw [if_neg h]
      have hpos : 0 < n := by
        have : 0 < 2 ^ 53 := by positivity
        omega
      obtain ⟨h1, h2⟩ := ih (n / 2) (by omega)
      constructor
      · have e : 2 ^ (53 + (excessBits k (n / 2) + 1)) = 2 * 2 ^ (53 + excessBits k (n / 2)) := by
          rw [← Nat.add_assoc, Nat.pow_succ, Nat.mul_comm]
        rw [e]
        omega
      · right
        have e : 2 ^ (52 + (excessBits k (n / 2) + 1)) = 2 * 2 ^ (52 + excessBits k (n / 2)) := by
          rw [← Nat.add_assoc, Nat.pow_succ, Nat.mul_comm]
        rw [e]
        rcases h2 with h2 | h2
        · rw [h2]
          have : (2 : Nat) * 2 ^ (52 + 0) = 2 ^ 53 := by norm_num
          omega
        · omega

theorem excessBits_eq_zero {n : Nat} (h : n < 2 ^ 53) : excessBits n n = 0 := by
  cases n with
  | zero => rfl
  | succ k =>
    unfold excessBits
    rw [if_pos h]

/-- Shape of a rounding: `n = Q + r` with `Q` the multiple of `P = 2^s` below
`n`, and the result is `Q` or `Q + P`, whichever is nearer. -/
theorem roundBits_cases (e : Bool) (n : Nat) :
    ∃ s Q r, s = excessBits n n ∧ Q = n / 2 ^ s * 2 ^ s ∧ n = Q + r ∧ r < 2 ^ s ∧
      ((roundBits e n = Q ∧ 2 * r ≤ 2 ^ s) ∨ (roundBits e n = Q + 2 ^ s ∧ 2 ^ s ≤ 2 * r)) := by
  refine ⟨excessBits n n, n / 2 ^ excessBits n n * 2 ^ excessBits n n,
    n % 2 ^ excessBits n n, rfl, rfl, ?_, ?_, ?_⟩
  · have := Nat.div_add_mod n (2 ^ excessBits n n)
    rw [Nat.mul_comm] at this
    exact this.symm
  · exact Nat.mod_lt _ (by positivity)
  · unfold roundBits
    simp only
    by_cases h1 : 2 * (n % 2 ^ excessBits n n) < 2 ^ excessBits n n
    · left
      rw [if_pos h1]
      exact ⟨rfl, by omega⟩
    · rw [if_neg h1]
      by_cases h2 : 2 * (n % 2 ^ excessBits n n) = 2 ^ excessBits n n ∧ e = true ∧
          n / 2 ^ excessBits n n % 2 = 0
      · left
        rw [if_pos h2]
        exact ⟨rfl, by omega⟩
      · right
        rw [if_neg h2]
        exact ⟨by rw [Nat.add_mul, Nat.one_mul], by omega⟩

/-- A quantity that already fits in 53 bits is not changed by rounding. -/
theorem roundBits_of_lt (e : Bool) {n : Nat} (h : n < 2 ^ 53) : roundBits e n = n := by
  unfold roundBits
  simp [excessBits_eq_zero h, Nat.mod_one]

/-- Below `2^64` a rounding moves the value by at most `2^10` units. -/
theorem roundNE53_near {n : Nat} (h : n < 2 ^ 64) :
    n ≤ roundNE53 n + 1024 ∧ roundNE53 n ≤ n + 1024 := by
  obtain ⟨s, Q, r, hs, -, hn, hr, hcase⟩ := roundBits_cases true n
  have hP : 2 ^ s ≤ 2048 := by
    rcases (excessBits_spec n n (Nat.le_refl n)).2 with h0 | h0
    · rw [hs, h0]
      norm_num
    · rw [← hs] at h0
      have hlt : 2 ^ (52 + s) < 2 ^ 64 := Nat.lt_of_le_of_lt h0 h
      have hs' : 52 + s < 64 := (Nat.pow_lt_pow_iff_right (by norm_num)).1 hlt
      calc 2 ^ s ≤ 2 ^ 11 := Nat.pow_le_pow_right (by norm_num) (by omega)
        _ = 2048 := by norm_num
  unfold roundNE53
  omega

/-- The three luma constants are the `float64` values nearest to 0.299, 0.587 and
0.114: each is `m * 2^k` units of `2^-56` with a 53-bit significand `m`, and
lies within half a unit in the last place of the decimal constant. -/
theorem luma_constants_nearest :
    (c299 = 5386305154335113 * 2 ^ 2 ∧ 2 ^ 52 ≤ 5386305154335113 ∧ 5386305154335113 < 2 ^ 53 ∧
      299 * 2 ^ 56 = 1000 * c299 + 216 * 2 ^ 2) ∧
    (c587 = 5287225962532962 * 2 ^ 3 ∧ 2 ^ 52 ≤ 5287225962532962 ∧ 5287225962532962 < 2 ^ 53 ∧
      587 * 2 ^ 56 = 1000 * c587 + 304 * 2 ^ 3) ∧
    (c114 = 8214565720323785 * 2 ^ 0 ∧ 2 ^ 52 ≤ 8214565720323785 ∧ 8214565720323785 < 2 ^ 53 ∧
      114 * 2 ^ 56 + 296 * 2 ^ 0 = 1000 * c114) := by
  unfold c299 c587 c114
  norm_num

/-- The truncated luma is the exact quotient `(299r + 587g + 114b) / 1000`,
except that it may be one less when the exact value is an integer. -/
theorem grayByte_near {r g b : Nat} (hr : r < 256) (hg : g < 256) (hb : b < 256) :
    grayByte r g b = (299 * r + 587 * g + 114 * b) / 1000 ∨
      ((299 * r + 587 * g + 114 * b) % 1000 = 0 ∧
        grayByte r g b + 1 = (299 * r + 587 * g + 114 * b) / 1000) := by
  unfold grayByte luma
  have h1 := @roundNE53_near (c299 * r) (by unfold c299; omega)
  have h2 := @roundNE53_near (c587 * g) (by unfold c587; omega)
  have h3 := @roundNE53_near (c114 * b) (by unfold c114; omega)
  have h4 := @roundNE53_near (roundNE53 (c299 * r) + roundNE53 (c587 * g))
    (by unfold c299 c587 at *; omega)
  have h5 := @roundNE53_near
    (roundNE53 (roundNE53 (c299 * r) + roundNE53 (c587 * g)) + roundNE53 (c114 * b))
    (by unfold c299 c587 c114 at *; omega)
  unfold c299 c587 c114 at *
  generalize roundNE53 (roundNE53 (roundNE53 (5386305154335113 * 4 * r) +
    roundNE53 (2643612981266481 * 16 * g)) + roundNE53 (8214565720323785 * b)) = x5 at *
  generalize roundNE53 (roundNE53 (5386305154335113 * 4 * r) +
    roundNE53 (2643612981266481 * 16 * g)) = x4 at *
  generalize roundNE53 (5386305154335113 * 4 * r) = x1 at *
  generalize roundNE53 (2643612981266481 * 16 * g) = x2 at *
  generalize roundNE53 (8214565720323785 * b) = x3 at *
  have key : x5 / 2 ^ 56 = (299 * r + 587 * g + 114 * b) / 1000 ∨
      ((299 * r + 587 * g + 114 * b) % 1000 = 0 ∧
        x5 / 2 ^ 56 + 1 = (299 * r + 587 * g + 114 * b) / 1000) := by
    omega
  have hl : (299 * r + 587 * g + 114 * b) / 1000 < 256 := by omega
  omega

/-- Truncating the correctly rounded `float64` square root of a small integer
gives the integer square root: the rounding never reaches the next integer. -/
theorem sqrtF64_trunc {n : Nat} (h : n < 2 ^ 22) : sqrtF64 n / 2 ^ 60 = Nat.sqrt n := by
  unfold sqrtF64
  simp only
  generalize ht : Nat.sqrt (n * 4 ^ 60) = t
  generalize hm : Nat.sqrt n = m
  have hm1 : m * m ≤ n := hm ▸ Nat.sqrt_le n
  have hm2 : n < (m + 1) * (m + 1) := hm ▸ Nat.lt_succ_sqrt n
  have ht1 : t * t ≤ n * 4 ^ 60 := ht ▸ Nat.sqrt_le _
  have hmlt : m < 2 ^ 11 := by
    by_contra hc
    push_neg at hc
    have := Nat.mul_le_mul hc hc
    norm_num at this h
    omega
  have hlo : m * 2 ^ 60 ≤ t := by
    rw [← ht]
    refine Nat.le_sqrt.2 ?_
    calc m * 2 ^ 60 * (m * 2 ^ 60) = m * m * 4 ^ 60 := by ring
      _ ≤ n * 4 ^ 60 := Nat.mul_le_mul_right _ hm1
  have hhi : t < (m + 1) * 2 ^ 60 := by
    rw [← ht]
    refine Nat.sqrt_lt.2 ?_
    calc n * 4 ^ 60 < (m + 1) * (m + 1) * 4 ^ 60 :=
          Nat.mul_lt_mul_of_pos_right hm2 (by positivity)
      _ = (m + 1) * 2 ^ 60 * ((m + 1) * 2 ^ 60) := by ring
  have hsq : t * t + 4 ^ 60 ≤ (m + 1) * 2 ^ 60 * ((m + 1) * 2 ^ 60) := by
    calc t * t + 4 ^ 60 ≤ n * 4 ^ 60 + 4 ^ 60 := Nat.add_le_add_right ht1 _
      _ = (n + 1) * 4 ^ 60 := by ring
      _ ≤ (m + 1) * (m + 1) * 4 ^ 60 := Nat.mul_le_mul_right _ hm2
      _ = (m + 1) * 2 ^ 60 * ((m + 1) * 2 ^ 60) := by ring
  obtain ⟨s, Q, r, hs, hQ, hn, hr, hcase⟩ := roundBits_cases (decide (t * t = n * 4 ^ 60)) t
  have hs18 : s ≤ 18 := by
    rcases (excessBits_spec t t (Nat.le_refl t)).2 with h0 | h0
    · omega
    · rw [← hs] at h0
      have hlt : 2 ^ (52 + s) < 2 ^ 71 := by
        have : (m + 1) * 2 ^ 60 ≤ 2 ^ 11 * 2 ^ 60 := Nat.mul_le_mul_right _ hmlt
        have e : (2 : Nat) ^ 11 * 2 ^ 60 = 2 ^ 71 := by norm_num
        omega
      have := (Nat.pow_lt_pow_iff_right (by norm_num)).1 hlt
      omega
  have hdiv : (2 : Nat) ^ 60 = 2 ^ (60 - s) * 2 ^ s := by
    rw [← pow_add]
    congr 1
    omega
  have hP : 2 ^ s ≤ 2 ^ 18 := Nat.pow_le_pow_right (by norm_num) hs18
  have hPpos : 0 < 2 ^ s := by positivity
  have hQlo : m * 2 ^ 60 ≤ Q := by
    rw [hQ, hdiv, ← Nat.mul_assoc]
    refine Nat.mul_le_mul_right _ ?_
    refine (Nat.le_div_iff_mul_le hPpos).2 ?_
    rw [Nat.mul_assoc, ← hdiv]
    exact hlo
  have hQhi : Q + 2 ^ s ≤ (m + 1) * 2 ^ 60 := by
    have h1 : t / 2 ^ s < (m + 1) * 2 ^ (60 - s) := by
      refine (Nat.div_lt_iff_lt_mul hPpos).2 ?_
      rw [Nat.mul_assoc, ← hdiv]
      exact hhi
    calc Q + 2 ^ s = (t / 2 ^ s + 1) * 2 ^ s := by rw [hQ, Nat.add_mul, Nat.one_mul]
      _ ≤ (m + 1) * 2 ^ (60 - s) * 2 ^ s := Nat.mul_le_mul_right _ h1
      _ = (m + 1) * 2 ^ 60 := by rw [Nat.mul_assoc, ← hdiv]
  have hres : m * 2 ^ 60 ≤ roundBits (decide (t * t = n * 4 ^ 60)) t ∧
      roundBits (decide (t * t = n * 4 ^ 60)) t < (m + 1) * 2 ^ 60 := by
    rcases hcase with ⟨e, -⟩ | ⟨e, hge⟩
    · rw [e]
      omega
    · rw [e]
      refine ⟨by omega, ?_⟩
      by_contra hc
      have ha : (m + 1) * 2 ^ 60 = Q + 2 ^ s := by omega
      have hd : (m + 1) * 2 ^ 60 ≤ t + 2 ^ 17 := by
        have : (2 : Nat) ^ 18 = 2 * 2 ^ 17 := by norm_num
        omega
      have ht71 : t < 2 ^ 71 := by
        have : (m + 1) * 2 ^ 60 ≤ 2 ^ 11 * 2 ^ 60 := Nat.mul_le_mul_right _ hmlt
        have e : (2 : Nat) ^ 11 * 2 ^ 60 = 2 ^ 71 := by norm_num
        omega
      have h2 : (m + 1) * 2 ^ 60 * ((m + 1) * 2 ^ 60) ≤ (t + 2 ^ 17) * (t + 2 ^ 17) :=
        Nat.mul_le_mul hd hd
      have h3 : (t + 2 ^ 17) * (t + 2 ^ 17) = t * t + (2 ^ 18 * t + 2 ^ 34) := by ring
      have h4 : (2 : Nat) ^ 18 * t + 2 ^ 34 < 4 ^ 60 := by
        norm_num at ht71 ⊢
        omega
      omega
  generalize roundBits (decide (t * t = n * 4 ^ 60)) t = R at hres
  have e60 : (2 : Nat) ^ 60 = 1152921504606846976 := by norm_num
  rw [e60] at hres ⊢
  omega

/-! ### Facts about buffers -/

theorem getElem?_eq_byte (img : NRGBA) {i : Nat} (h : i < img.Pix.length) :
    img.Pix[i]? = some (img.byte i) := by
  unfold NRGBA.byte
  rw [List.getD_eq_getElem?_getD, List.getElem?_eq_getElem h]
  rfl

theorem store_eq {buf : List Nat} {i : Nat} (v : Nat) (h : i < buf.length) :
    store buf i v = some (buf.set i v) := by
  unfold store
  rw [if_pos h]

/-- A pixel position inside the rectangle has its four bytes inside the
buffer. -/
theorem PixOffset_lt (img : NRGBA) (hlen : img.Pix.length = 4 * img.width * img.height)
    {x y : Nat} (hx : x < img.width) (hy : y < img.height) :
    img.PixOffset x y + 3 < img.Pix.length := by
  unfold NRGBA.PixOffset NRGBA.Stride
  have h1 : (y + 1) * img.width ≤ img.height * img.width := Nat.mul_le_mul_right _ hy
  have e1 : y * (4 * img.width) = 4 * (y * img.width) := by ring
  have e2 : 4 * img.width * img.height = 4 * (img.height * img.width) := by ring
  have e3 : (y + 1) * img.width = y * img.width + img.width := by ring
  rw [hlen, e1, e2]
  omega

theorem PixOffset_eq (img : NRGBA) (x y : Nat) :
    img.PixOffset x y = 4 * (y * img.width + x) := by
  unfold NRGBA.PixOffset NRGBA.Stride
  ring

/-- A pixel index determines its row and column. -/
theorem index_iff {w : Nat} (p i j : Nat) (hi : i < w) :
    p = j * w + i ↔ p / w = j ∧ p % w = i := by
  have hw : 0 < w := by omega
  constructor
  · intro h
    subst h
    constructor
    · rw [Nat.add_comm, Nat.add_mul_div_right _ _ hw, Nat.div_eq_of_lt hi, Nat.zero_add]
    · rw [Nat.add_comm, Nat.add_mul_mod_self_right, Nat.mod_eq_of_lt hi]
  · rintro ⟨h1, h2⟩
    have := Nat.div_add_mod p w
    rw [h1, h2, Nat.mul_comm] at this
    exact this.symm

/-! ### The edge stage in closed form -/

theorem sobelStep_eq (img : NRGBA) (hlen : img.Pix.length = 4 * img.width * img.height)
    {x y : Nat} (hx1 : 1 ≤ x) (hx2 : x + 1 < img.width) (hy1 : 1 ≤ y)
    (hy2 : y + 1 < img.height) (nf : List Nat) (hnf : nf.length = img.Pix.length) :
    sobelStep img y x nf = some (written img y x nf) := by
  have b1 := PixOffset_lt img hlen (x := x - 1) (y := y - 1) (by omega) (by omega)
  have b2 := PixOffset_lt img hlen (x := x) (y := y - 1) (by omega) (by omega)
  have b3 := PixOffset_lt img hlen (x := x + 1) (y := y - 1) (by omega) (by omega)
  have b4 := PixOffset_lt img hlen (x := x - 1) (y := y) (by omega) (by omega)
  have b5 := PixOffset_lt img hlen (x := x) (y := y) (by omega) (by omega)
  have b6 := PixOffset_lt img hlen (x := x + 1) (y := y) (by omega) (by omega)
  have b7 := PixOffset_lt img hlen (x := x - 1) (y := y + 1) (by omega) (by omega)
  have b8 := PixOffset_lt img hlen (x := x) (y := y + 1) (by omega) (by omega)
  have b9 := PixOffset_lt img hlen (x := x + 1) (y := y + 1) (by omega) (by omega)
  unfold sobelStep written magAt gx gy
  simp only [getElem?_eq_byte img (show img.PixOffset (x - 1) (y - 1) < _ by omega),
    getElem?_eq_byte img (show img.PixOffset x (y - 1) < _ by omega),
    getElem?_eq_byte img (show img.PixOffset (x + 1) (y - 1) < _ by omega),
    getElem?_eq_byte img (show img.PixOffset (x - 1) y < _ by omega),
    getElem?_eq_byte img (show img.PixOffset x y < _ by omega),
    getElem?_eq_byte img (show img.PixOffset (x + 1) y < _ by omega),
    getElem?_eq_byte img (show img.PixOffset (x - 1) (y + 1) < _ by omega),
    getElem?_eq_byte img (show img.PixOffset x (y + 1) < _ by omega),
    getElem?_eq_byte img (show img.PixOffset (x + 1) (y + 1) < _ by omega),
    Option.bind_eq_bind, Option.some_bind]
  rw [store_eq _ (by omega)]
  simp only [Option.some_bind]
  rw [store_eq _ (by rw [List.length_set]; omega)]
  simp only [Option.some_bind]
  rw [store_eq _ (by rw [List.length_set, List.length_set]; omega)]
  simp only [Option.some_bind]
  rw [store_eq _ (by rw [List.length_set, List.length_set, List.length_set]; omega)]

theorem written_getElem? (img : NRGBA) (hlen : img.Pix.length = 4 * img.width * img.height)
    {x y : Nat} (hx1 : 1 ≤ x) (hx2 : x + 1 < img.width) (hy1 : 1 ≤ y)
    (hy2 : y + 1 < img.height) (nf : List Nat) (hnf : nf.length = img.Pix.length) (b : Nat) :
    (written img y x nf)[b]? =
      if b / 4 / img.width + 1 = y ∧ b / 4 % img.width + 1 = x then
        some (if b % 4 = 3 then 100 else magAt img x y)
      else nf[b]? := by
  have b1 := PixOffset_lt img hlen (x := x - 1) (y := y - 1) (by omega) (by omega)
  have key : (b / 4 / img.width + 1 = y ∧ b / 4 % img.width + 1 = x) ↔
      b / 4 = (y - 1) * img.width + (x - 1) := by
    rw [index_iff (b / 4) (x - 1) (y - 1) (by omega)]
    omega
  unfold written
  rw [PixOffset_eq] at b1 ⊢
  generalize (y - 1) * img.width + (x - 1) = p at key b1
  simp only [List.getElem?_set, List.length_set]
  by_cases hb : b / 4 = p
  · rw [if_pos (key.2 hb)]
    split_ifs <;> first | rfl | omega
  · rw [if_neg (fun h => hb (key.1 h))]
    split_ifs <;> first | rfl | omega

theorem written_length (img : NRGBA) (y x : Nat) (nf : List Nat) :
    (written img y x nf).length = nf.length := by
  unfold written
  simp only [List.length_set]

/-- The inner loop over any list of admissible columns: the bytes of the pixels
one to the left of those columns, in the row above `y`, are set; every other
byte is kept. -/
theorem sobelRow_spec (img : NRGBA) (hlen : img.Pix.length = 4 * img.width * img.height)
    {y : Nat} (hy1 : 1 ≤ y) (hy2 : y + 1 < img.height) :
    ∀ (xs : List Nat), (∀ x ∈ xs, 1 ≤ x ∧ x + 1 < img.width) →
      ∀ nf : List Nat, nf.length = img.Pix.length →
        ∃ nf', xs.foldlM (fun nf x => sobelStep img y x nf) nf = some nf' ∧
          nf'.length = img.Pix.length ∧
          ∀ b, nf'[b]? =
            if b / 4 / img.width + 1 = y ∧ b / 4 % img.width + 1 ∈ xs then
              some (if b % 4 = 3 then 100 else magAt img (b / 4 % img.width + 1) y)
            else nf[b]? := by
  intro xs
  induction xs with
  | nil =>
    intro _ nf hnf
    exact ⟨nf, rfl, hnf, fun b => by simp⟩
  | cons x xs ih =>
    intro hxs nf hnf
    have hx := hxs x (List.mem_cons_self _ _)
    obtain ⟨nf', h1, h2, h3⟩ := ih (fun z hz => hxs z (List.mem_cons_of_mem _ hz))
      (written img y x nf) (by rw [written_length]; exact hnf)
    refine ⟨nf', ?_, h2, ?_⟩
    · rw [List.foldlM_cons, sobelStep_eq img hlen hx.1 hx.2 hy1 hy2 nf hnf]
      exact h1
    · intro b
      rw [h3 b, written_getElem? img hlen hx.1 hx.2 hy1 hy2 nf hnf b]
      simp only [List.mem_cons]
      by_cases hcol : b / 4 % img.width + 1 = x
      · subst hcol
        by_cases hrow : b / 4 / img.width + 1 = y <;>
          by_cases hmem : b / 4 % img.width + 1 ∈ xs <;> simp only [hrow, hmem, true_and,
            false_and, true_or, or_true, if_true, if_false, and_self, and_true]
      · by_cases hrow : b / 4 / img.width + 1 = y <;>
          by_cases hmem : b / 4 % img.width + 1 ∈ xs <;> simp only [hrow, hmem, hcol, true_and,
            false_and, true_or, or_true, false_or, or_false, if_true, if_false, and_self,
            and_true, and_false]

/-- The outer loop over any list of admissible rows. -/
theorem convolve_spec (img : NRGBA) (hlen : img.Pix.length = 4 * img.width * img.height) :
    ∀ (ys : List Nat), (∀ y ∈ ys, 1 ≤ y ∧ y + 1 < img.height) →
      ∀ nf : List Nat, nf.length = img.Pix.length →
        ∃ nf', ys.foldlM (sobelRow img) nf = some nf' ∧
          nf'.length = img.Pix.length ∧
          ∀ b, nf'[b]? =
            if b / 4 / img.width + 1 ∈ ys ∧
                b / 4 % img.width + 1 ∈ List.range' 1 (img.width - 2) then
              some (if b % 4 = 3 then 100
                else magAt img (b / 4 % img.width + 1) (b / 4 / img.width + 1))
            else nf[b]? := by
  intro ys
  induction ys with
  | nil =>
    intro _ nf hnf
    exact ⟨nf, rfl, hnf, fun b => by simp⟩
  | cons y ys ih =>
    intro hys nf hnf
    have hy := hys y (List.mem_cons_self _ _)
    obtain ⟨nf1, r1, r2, r3⟩ := sobelRow_spec img hlen hy.1 hy.2
      (List.range' 1 (img.width - 2))
      (fun x hx => by
        have := List.mem_range'_1.1 hx
        omega) nf hnf
    obtain ⟨nf', h1, h2, h3⟩ := ih (fun z hz => hys z (List.mem_cons_of_mem _ hz)) nf1 r2
    refine ⟨nf', ?_, h2, ?_⟩
    · rw [List.foldlM_cons]
      unfold sobelRow
      rw [r1]
      exact h1
    · intro b
      rw [h3 b, r3 b]
      simp only [List.mem_cons]
      by_cases hrow : b / 4 / img.width + 1 = y
      · subst hrow
        by_cases hcol : b / 4 % img.width + 1 ∈ List.range' 1 (img.width - 2) <;>
          by_cases hmem : b / 4 / img.width + 1 ∈ ys <;> simp only [hcol, hmem, true_and,
            false_and, true_or, or_true, if_true, if_false, and_self, and_true, and_false]
      · by_cases hcol : b / 4 % img.width + 1 ∈ List.range' 1 (img.width - 2) <;>
          by_cases hmem : b / 4 / img.width + 1 ∈ ys <;> simp only [hrow, hmem, hcol, true_and,
            false_and, true_or, or_true, false_or, or_false, if_true, if_false, and_self,
            and_true, and_false]

/-- The two loops of the edge stage compute exactly `edgeFrame`. -/
theorem convolve_eq (img : NRGBA) (hlen : img.Pix.length = 4 * img.width * img.height) :
    convolve img = some (edgeFrame img) := by
  obtain ⟨nf', h1, h2, h3⟩ := convolve_spec img hlen (List.range' 1 (img.height - 2))
    (fun y hy => by
      have := List.mem_range'_1.1 hy
      omega) (List.replicate img.Pix.length 0) (List.length_replicate _ _)
  unfold convolve
  rw [h1]
  congr 1
  apply List.ext_getElem?
  intro b
  unfold edgeFrame
  rw [List.getElem?_map]
  by_cases hb : b < img.Pix.length
  · rw [h3 b, List.getElem?_range hb, List.getElem?_replicate, if_pos hb]
    unfold edgeByte
    simp only [List.mem_range'_1, Option.map_some']
    generalize b / 4 % img.width = i
    generalize b / 4 / img.width = j
    by_cases hc : i + 2 < img.width ∧ j + 2 < img.height
    · rw [if_pos hc, if_pos (by omega)]
    · rw [if_neg hc, if_neg (by omega)]
  · rw [List.getElem?_eq_none (by omega), List.getElem?_eq_none (by rw [List.length_range]; omega)]
    rfl

/-- On a well-formed buffer the edge stage returns `edgeFrame`. -/
theorem processImg_eq (img : NRGBA) (hwf : WellFormed img) :
    processImg img = some (edgeFrame img) := by
  unfold processImg
  rw [convolve_eq img hwf.2.1]
  have hw : img.width ≠ 0 := Nat.pos_iff_ne_zero.1 hwf.1
  simp [ImageData.Bounds, hw]

theorem edgeFrame_length (img : NRGBA) : (edgeFrame img).length = img.Pix.length := by
  unfold edgeFrame
  rw [List.length_map, List.length_range]

/-- Byte `c` of pixel `(x, y)` sits at index `4 * (y * w + x) + c`; its pixel
index, column and row are recovered by division. -/
theorem byte_index {w x y c : Nat} (hx : x < w) (hc : c < 4) :
    (4 * (y * w + x) + c) / 4 / w = y ∧ (4 * (y * w + x) + c) / 4 % w = x ∧
      (4 * (y * w + x) + c) % 4 = c := by
  have e : (4 * (y * w + x) + c) / 4 = y * w + x := by omega
  rw [e]
  have := (index_iff (y * w + x) x y hx).1 rfl
  exact ⟨this.1, this.2, by omega⟩

theorem edgeFrame_getD (img : NRGBA) (hlen : img.Pix.length = 4 * img.width * img.height)
    {x y c : Nat} (hx : x < img.width) (hy : y < img.height) (hc : c < 4) :
    (edgeFrame img).getD (4 * (y * img.width + x) + c) 0 =
      if x + 2 < img.width ∧ y + 2 < img.height then
        if c = 3 then 100 else magAt img (x + 1) (y + 1)
      else 0 := by
  have hb := PixOffset_lt img hlen hx hy
  rw [PixOffset_eq] at hb
  obtain ⟨e1, e2, e3⟩ := byte_index (w := img.width) (x := x) (y := y) (c := c) hx hc
  unfold edgeFrame
  rw [List.getD_eq_getElem?_getD, List.getElem?_map, List.getElem?_range (by omega)]
  simp only [Option.map_some', Option.getD_some]
  unfold edgeByte
  rw [e1, e2, e3]

/-- The pixel at `(x, y)` of the edge stage output, for any position in the
rectangle: the result of the window centred on `(x+1, y+1)` when that window
exists, four zero bytes otherwise. -/
theorem pixelAt_edgeFrame (img : NRGBA) (hlen : img.Pix.length = 4 * img.width * img.height)
    {x y : Nat} (hx : x < img.width) (hy : y < img.height) :
    pixelAt (edgeFrame img) img.width x y =
      if x + 2 < img.width ∧ y + 2 < img.height then
        [magAt img (x + 1) (y + 1), magAt img (x + 1) (y + 1), magAt img (x + 1) (y + 1), 100]
      else [0, 0, 0, 0] := by
  unfold pixelAt
  have h0 := edgeFrame_getD img hlen hx hy (c := 0) (by omega)
  rw [Nat.add_zero] at h0
  rw [h0, edgeFrame_getD img hlen hx hy (c := 1) (by omega),
    edgeFrame_getD img hlen hx hy (c := 2) (by omega),
    edgeFrame_getD img hlen hx hy (c := 3) (by omega)]
  by_cases h : x + 2 < img.width ∧ y + 2 < img.height
  · simp [h]
  · simp [h]

/-! ### The grayscale stage in closed form -/

/-- A loop whose body appends a block that depends only on the loop variable
builds the concatenation of the blocks. -/
theorem foldlM_append_eq {α : Type} (step : List Nat → α → Option (List Nat))
    (f : α → List Nat) :
    ∀ (ks : List α), (∀ k ∈ ks, ∀ acc, step acc k = some (acc ++ f k)) →
      ∀ init, ks.foldlM step init = some (init ++ ks.flatMap f) := by
  intro ks
  induction ks with
  | nil =>
    intro _ init
    simp
  | cons k ks ih =>
    intro h init
    rw [List.foldlM_cons, h k (List.mem_cons_self _ _) init]
    simp only [Option.bind_eq_bind, Option.some_bind]
    rw [ih (fun z hz => h z (List.mem_cons_of_mem _ hz)) (init ++ f k)]
    simp [List.flatMap_cons, List.append_assoc]

/-- Blocks of four bytes, one per pixel, laid end to end. -/
theorem flatMap_quad (g : Nat → List Nat) (F : Nat → Nat)
    (hg : ∀ p, g p = [F (4 * p), F (4 * p + 1), F (4 * p + 2), F (4 * p + 3)]) (n : Nat) :
    (List.range n).flatMap g = (List.range (4 * n)).map F := by
  induction n with
  | zero => rfl
  | succ n ih =>
    have e : 4 * (n + 1) = 4 * n + 1 + 1 + 1 + 1 := by ring
    rw [List.range_succ, List.flatMap_append, ih, e, List.range_succ, List.range_succ,
      List.range_succ, List.range_succ]
    simp [hg, List.flatMap_cons]

theorem grayByte_lt (r g b : Nat) : grayByte r g b < 256 :=
  Nat.mod_lt _ (by norm_num)

theorem grayOut_quad (img : NRGBA) (p : Nat) :
    [grayByte (img.byte (4 * p)) (img.byte (4 * p + 1)) (img.byte (4 * p + 2)),
      grayByte (img.byte (4 * p)) (img.byte (4 * p + 1)) (img.byte (4 * p + 2)),
      grayByte (img.byte (4 * p)) (img.byte (4 * p + 1)) (img.byte (4 * p + 2)), 255] =
    [grayOut img (4 * p), grayOut img (4 * p + 1), grayOut img (4 * p + 2),
      grayOut img (4 * p + 3)] := by
  have e0 : 4 * p / 4 = p := by omega
  have e1 : (4 * p + 1) / 4 = p := by omega
  have e2 : (4 * p + 2) / 4 = p := by omega
  have m0 : 4 * p % 4 = 0 := by omega
  have m1 : (4 * p + 1) % 4 = 1 := by omega
  have m2 : (4 * p + 2) % 4 = 2 := by omega
  have m3 : (4 * p + 3) % 4 = 3 := by omega
  unfold grayOut
  rw [e0, e1, e2, m0, m1, m2, m3]
  simp

theorem grayPix_length (img : NRGBA) : (grayPix img).length = img.Pix.length := by
  unfold grayPix
  rw [List.length_map, List.length_range]

theorem grayPix_getElem? (img : NRGBA) {i : Nat} (h : i < img.Pix.length) :
    (grayPix img)[i]? = some (grayOut img i) := by
  unfold grayPix
  rw [List.getElem?_map, List.getElem?_range h]
  rfl

/-- The loop of the grayscale stage computes `grayPix`. -/
theorem grayFrame_eq (img : NRGBA) (hwf : WellFormed img) :
    grayFrame img = some (grayPix img) := by
  obtain ⟨hw, hlen, -⟩ := hwf
  have hn : (img.Pix.length + 3) / 4 = img.width * img.height := by
    rw [hlen, Nat.mul_assoc]
    omega
  unfold grayFrame
  rw [foldlM_append_eq _ (fun p =>
    [grayByte (img.byte (4 * p)) (img.byte (4 * p + 1)) (img.byte (4 * p + 2)),
      grayByte (img.byte (4 * p)) (img.byte (4 * p + 1)) (img.byte (4 * p + 2)),
      grayByte (img.byte (4 * p)) (img.byte (4 * p + 1)) (img.byte (4 * p + 2)), 255])]
  · rw [List.nil_append, flatMap_quad _ (grayOut img) (grayOut_quad img), hn]
    unfold grayPix
    rw [hlen, Nat.mul_assoc]
  · intro k hk acc
    have hk' : k < img.width * img.height := by
      rw [← hn]
      exact List.mem_range.1 hk
    have hlen' : img.Pix.length = 4 * (img.width * img.height) := by
      rw [hlen, Nat.mul_assoc]
    unfold grayStep
    rw [getElem?_eq_byte img (show 4 * k < _ by omega),
      getElem?_eq_byte img (show 4 * k + 1 < _ by omega),
      getElem?_eq_byte img (show 4 * k + 2 < _ by omega)]
    simp only [Option.bind_eq_bind, Option.some_bind]
    rw [if_neg (by omega)]
    rfl

/-- Redrawing the grayscale buffer through `ImageData.At` reproduces it. -/
theorem drawSrc_grayPix (img : NRGBA) (hwf : WellFormed img) :
    drawSrc ⟨grayPix img, img.width⟩ img.width img.height = some (grayPix img) := by
  obtain ⟨hw, hlen, -⟩ := hwf
  have hlen' : img.Pix.length = 4 * (img.width * img.height) := by
    rw [hlen, Nat.mul_assoc]
  unfold drawSrc
  rw [foldlM_append_eq _ (fun p =>
    [grayByte (img.byte (4 * p)) (img.byte (4 * p + 1)) (img.byte (4 * p + 2)),
      grayByte (img.byte (4 * p)) (img.byte (4 * p + 1)) (img.byte (4 * p + 2)),
      grayByte (img.byte (4 * p)) (img.byte (4 * p + 1)) (img.byte (4 * p + 2)), 255])]
  · rw [List.nil_append, flatMap_quad _ (grayOut img) (grayOut_quad img)]
    unfold grayPix
    rw [hlen']
  · intro p hp acc
    have hp' : p < img.width * img.height := List.mem_range.1 hp
    have e : p / img.width * img.width + p % img.width = p := Nat.div_add_mod' p img.width
    have q := grayOut_quad img p
    simp only [List.cons.injEq, and_true] at q
    obtain ⟨q0, q1, q2, -⟩ := q
    have hb := grayByte_lt (img.byte (4 * p)) (img.byte (4 * p + 1)) (img.byte (4 * p + 2))
    unfold ImageData.At
    simp only [e]
    rw [Nat.mul_comm p 4, grayPix_getElem? img (show 4 * p < _ by omega),
      grayPix_getElem? img (show 4 * p + 1 < _ by omega),
      grayPix_getElem? img (show 4 * p + 2 < _ by omega)]
    simp only [Option.bind_eq_bind, Option.some_bind, Option.pure_def, nrgbaBytes]
    rw [← q0, ← q1, ← q2]
    generalize grayByte (img.byte (4 * p)) (img.byte (4 * p + 1)) (img.byte (4 * p + 2)) = v at hb
    have hv : v * 257 / 256 = v := by omega
    rw [hv, Nat.mod_eq_of_lt hb]

/-- On a well-formed buffer the grayscale stage returns the buffer `grayPix`
with the same width and height. -/
theorem grayscale_eq (img : NRGBA) (hwf : WellFormed img) :
    grayscale img = some ⟨grayPix img, img.width, img.height⟩ := by
  have hw : img.width ≠ 0 := Nat.pos_iff_ne_zero.1 hwf.1
  have hh : (grayPix img).length / 4 / img.width = img.height := by
    rw [grayPix_length, hwf.2.1, Nat.mul_assoc, Nat.mul_div_cancel_left _ (by norm_num),
      Nat.mul_div_cancel_left _ hwf.1]
  unfold grayscale
  rw [grayFrame_eq img hwf]
  simp only [Option.bind_eq_bind, Option.some_bind, ImageData.Bounds, if_neg hw, hh]
  rw [drawSrc_grayPix img hwf]
  rfl

/-! ### The magnitude byte -/

theorem byte_lt (img : NRGBA) (hwf : WellFormed img) (i : Nat) : img.byte i < 256 := by
  unfold NRGBA.byte
  rw [List.getD_eq_getElem?_getD]
  by_cases h : i < img.Pix.length
  · rw [List.getElem?_eq_getElem h]
    exact hwf.2.2 _ (List.getElem_mem h)
  · rw [List.getElem?_eq_none (by omega)]
    exact Nat.zero_lt_succ _

/-- The table `horizontal`: right column minus left column. -/
theorem weightedSum_horizontal (p1 p2 p3 p4 p5 p6 p7 p8 p9 : Nat) :
    weightedSum horizontal p1 p2 p3 p4 p5 p6 p7 p8 p9 =
      ((p3 : Int) + p6 + p9) - ((p1 : Int) + p4 + p7) := by
  simp [weightedSum, horizontal, entry]
  ring

/-- The table `vertical`: bottom row minus top row. -/
theorem weightedSum_vertical (p1 p2 p3 p4 p5 p6 p7 p8 p9 : Nat) :
    weightedSum vertical p1 p2 p3 p4 p5 p6 p7 p8 p9 =
      ((p7 : Int) + p8 + p9) - ((p1 : Int) + p2 + p3) := by
  simp [weightedSum, vertical, entry]
  ring

/-- For gradients of byte windows every floating-point step before the root is
exact and the truncated root is the integer square root. -/
theorem magnitude_eq {h v : Nat} (hh : h ≤ 765) (hv : v ≤ 765) :
    magnitude h v = Nat.sqrt (h * h + v * v) % 256 := by
  have h1 : h * h ≤ 765 * 765 := Nat.mul_le_mul hh hh
  have h2 : v * v ≤ 765 * 765 := Nat.mul_le_mul hv hv
  have e53 : (2 : Nat) ^ 53 = 9007199254740992 := by norm_num
  have e22 : (2 : Nat) ^ 22 = 4194304 := by norm_num
  unfold magnitude roundNE53
  rw [roundBits_of_lt true (n := h * h) (by omega), roundBits_of_lt true (n := v * v) (by omega),
    roundBits_of_lt true (n := h * h + v * v) (by omega), sqrtF64_trunc (by omega)]

theorem gx_natAbs_le (img : NRGBA) (hwf : WellFormed img) (x y : Nat) :
    absGradient (gx img x y) ≤ 765 := by
  unfold gx absGradient
  rw [weightedSum_horizontal]
  have a1 := byte_lt img hwf (img.PixOffset (x - 1) (y - 1))
  have a3 := byte_lt img hwf (img.PixOffset (x + 1) (y - 1))
  have a4 := byte_lt img hwf (img.PixOffset (x - 1) y)
  have a6 := byte_lt img hwf (img.PixOffset (x + 1) y)
  have a7 := byte_lt img hwf (img.PixOffset (x - 1) (y + 1))
  have a9 := byte_lt img hwf (img.PixOffset (x + 1) (y + 1))
  omega

theorem gy_natAbs_le (img : NRGBA) (hwf : WellFormed img) (x y : Nat) :
    absGradient (gy img x y) ≤ 765 := by
  unfold gy absGradient
  rw [weightedSum_vertical]
  have a1 := byte_lt img hwf (img.PixOffset (x - 1) (y - 1))
  have a2 := byte_lt img hwf (img.PixOffset x (y - 1))
  have a3 := byte_lt img hwf (img.PixOffset (x + 1) (y - 1))
  have a7 := byte_lt img hwf (img.PixOffset (x - 1) (y + 1))
  have a8 := byte_lt img hwf (img.PixOffset x (y + 1))
  have a9 := byte_lt img hwf (img.PixOffset (x + 1) (y + 1))
  omega

/-- The byte computed for a window whose two sums are known. -/
theorem magAt_of_sums (img : NRGBA) (hwf : WellFormed img) {x y a b : Nat}
    (ha : absGradient (gx img x y) = a) (hb : absGradient (gy img x y) = b) :
    magAt img x y = Nat.sqrt (a * a + b * b) % 256 := by
  unfold magAt
  rw [magnitude_eq (gx_natAbs_le img hwf x y) (gy_natAbs_le img hwf x y), ha, hb]

/-- The byte computed for a window is the integer square root of
`Gx^2 + Gy^2`, reduced modulo 256. -/
theorem magAt_eq (img : NRGBA) (hwf : WellFormed img) (x y : Nat) :
    magAt img x y = Nat.sqrt ((gx img x y) ^ 2 + (gy img x y) ^ 2).toNat % 256 := by
  unfold magAt
  rw [magnitude_eq (gx_natAbs_le img hwf x y) (gy_natAbs_le img hwf x y)]
  unfold absGradient
  congr 2
  have e : ((gx img x y) ^ 2 + (gy img x y) ^ 2) =
      (((gx img x y).natAbs * (gx img x y).natAbs + (gy img x y).natAbs * (gy img x y).natAbs : Nat) : Int) := by
    push_cast
    rw [abs_mul_abs_self, abs_mul_abs_self]
    ring
  rw [e, Int.toNat_ofNat]

/-! ### Pixels of the grayscale output -/

theorem grayPix_getD (img : NRGBA) {i : Nat} (h : i < img.Pix.length) :
    (grayPix img).getD i 0 = grayOut img i := by
  rw [List.getD_eq_getElem?_getD, grayPix_getElem? img h]
  rfl

theorem grayOut_lt (img : NRGBA) (i : Nat) : grayOut img i < 256 := by
  unfold grayOut
  split
  · norm_num
  · exact grayByte_lt _ _ _

/-- The grayscale output is again a well-formed buffer. -/
theorem grayPix_wellFormed (img : NRGBA) (hwf : WellFormed img) :
    WellFormed ⟨grayPix img, img.width, img.height⟩ := by
  refine ⟨hwf.1, ?_, ?_⟩
  · show (grayPix img).length = 4 * img.width * img.height
    rw [grayPix_length, hwf.2.1]
  · intro b hb
    show b < 256
    unfold grayPix at hb
    obtain ⟨i, -, rfl⟩ := List.mem_map.1 hb
    exact grayOut_lt img i

/-- The pixel at `(x, y)` of the grayscale output: the truncated luma of the
R, G, B bytes of the input pixel at `(x, y)`, three times, and alpha 255. -/
theorem pixelAt_grayPix (img : NRGBA) (hwf : WellFormed img) {x y : Nat}
    (hx : x < img.width) (hy : y < img.height) :
    pixelAt (grayPix img) img.width x y =
      [grayByte (img.byte (4 * (y * img.width + x))) (img.byte (4 * (y * img.width + x) + 1))
          (img.byte (4 * (y * img.width + x) + 2)),
        grayByte (img.byte (4 * (y * img.width + x))) (img.byte (4 * (y * img.width + x) + 1))
          (img.byte (4 * (y * img.width + x) + 2)),
        grayByte (img.byte (4 * (y * img.width + x))) (img.byte (4 * (y * img.width + x) + 1))
          (img.byte (4 * (y * img.width + x) + 2)), 255] := by
  have hb := PixOffset_lt img hwf.2.1 hx hy
  rw [PixOffset_eq] at hb
  unfold pixelAt
  rw [grayPix_getD img (show 4 * (y * img.width + x) < _ by omega),
    grayPix_getD img (show 4 * (y * img.width + x) + 1 < _ by omega),
    grayPix_getD img (show 4 * (y * img.width + x) + 2 < _ by omega),
    grayPix_getD img (show 4 * (y * img.width + x) + 3 < _ by omega)]
  have q := grayOut_quad img (y * img.width + x)
  exact q.symm

/-- The pixel of a buffer, in terms of `NRGBA.byte`. -/
theorem pixelAt_Pix (img : NRGBA) (x y : Nat) :
    pixelAt img.Pix img.width x y =
      [img.byte (4 * (y * img.width + x)), img.byte (4 * (y * img.width + x) + 1),
        img.byte (4 * (y * img.width + x) + 2), img.byte (4 * (y * img.width + x) + 3)] :=
  rfl

/-- On a gray pixel `(v, v, v)` the truncated luma is `v` or `v - 1`. -/
theorem grayByte_diag {v : Nat} (hv : v < 256) :
    grayByte v v v = v ∨ grayByte v v v + 1 = v := by
  have h := grayByte_near hv hv hv
  omega

/-! ### Uniform images -/

/-- A window all of whose R bytes are equal has magnitude byte zero. -/
theorem magAt_uniform (img : NRGBA) (r : Nat)
    (hr : ∀ x y, x < img.width → y < img.height → img.byte (img.PixOffset x y) = r)
    {x y : Nat} (hx1 : 1 ≤ x) (hx2 : x + 1 < img.width) (hy1 : 1 ≤ y)
    (hy2 : y + 1 < img.height) : magAt img x y = 0 := by
  have a1 := hr (x - 1) (y - 1) (by omega) (by omega)
  have a2 := hr x (y - 1) (by omega) (by omega)
  have a3 := hr (x + 1) (y - 1) (by omega) (by omega)
  have a4 := hr (x - 1) y (by omega) (by omega)
  have a5 := hr x y (by omega) (by omega)
  have a6 := hr (x + 1) y (by omega) (by omega)
  have a7 := hr (x - 1) (y + 1) (by omega) (by omega)
  have a8 := hr x (y + 1) (by omega) (by omega)
  have a9 := hr (x + 1) (y + 1) (by omega) (by omega)
  have e1 : absGradient (gx img x y) = 0 := by
    unfold gx absGradient
    rw [a1, a2, a3, a4, a5, a6, a7, a8, a9, weightedSum_horizontal]
    omega
  have e2 : absGradient (gy img x y) = 0 := by
    unfold gy absGradient
    rw [a1, a2, a3, a4, a5, a6, a7, a8, a9, weightedSum_vertical]
    omega
  unfold magAt
  rw [e1, e2, magnitude_eq (by omega) (by omega)]
  norm_num

/-- The edge stage output on an image whose R bytes are all equal: `(0,0,0,100)`
where a result is stored, four zero bytes elsewhere. -/
theorem pixelAt_edgeFrame_uniform (img : NRGBA)
    (hlen : img.Pix.length = 4 * img.width * img.height) (r : Nat)
    (hr : ∀ x y, x < img.width → y < img.height → img.byte (img.PixOffset x y) = r)
    {x y : Nat} (hx : x < img.width) (hy : y < img.height) :
    pixelAt (edgeFrame img) img.width x y =
      if x + 2 < img.width ∧ y + 2 < img.height then [0, 0, 0, 100] else [0, 0, 0, 0] := by
  rw [pixelAt_edgeFrame img hlen hx hy]
  by_cases h : x + 2 < img.width ∧ y + 2 < img.height
  · rw [if_pos h, if_pos h,
      magAt_uniform img r hr (x := x + 1) (y := y + 1) (by omega) (by omega) (by omega) (by omega)]
  · rw [if_neg h, if_neg h]

theorem uniformGray_byte (w h g : Nat) {i : Nat} (hi : i < 4 * w * h) :
    (uniformGray w h g).byte i = if i % 4 = 3 then 255 else g := by
  unfold NRGBA.byte uniformGray
  rw [List.getD_eq_getElem?_getD, List.getElem?_map, List.getElem?_range hi]
  rfl

theorem uniformGray_length (w h g : Nat) : (uniformGray w h g).Pix.length = 4 * w * h := by
  unfold uniformGray
  rw [List.length_map, List.length_range]

theorem uniformGray_wellFormed {w h g : Nat} (hw : 0 < w) (hg : g < 256) :
    WellFormed (uniformGray w h g) := by
  refine ⟨hw, uniformGray_length w h g, ?_⟩
  intro b hb
  unfold uniformGray at hb
  obtain ⟨i, -, rfl⟩ := List.mem_map.1 hb
  show (if i % 4 = 3 then 255 else g) < 256
  split
  · norm_num
  · exact hg

/-- The R byte of every pixel of `uniformGray w h g` is `g`. -/
theorem uniformGray_red (w h g : Nat) :
    ∀ x y, x < (uniformGray w h g).width → y < (uniformGray w h g).height →
      (uniformGray w h g).byte ((uniformGray w h g).PixOffset x y) = g := by
  intro x y hx hy
  have hb := PixOffset_lt (uniformGray w h g) (uniformGray_length w h g) hx hy
  rw [uniformGray_length] at hb
  rw [uniformGray_byte w h g (by omega), PixOffset_eq, if_neg (by omega)]

/-- Grayscale of a uniform gray image is the uniform gray image of the truncated
luma of its level. -/
theorem grayPix_uniformGray (w h g : Nat) :
    grayPix (uniformGray w h g) = (uniformGray w h (grayByte g g g)).Pix := by
  unfold grayPix
  rw [uniformGray_length]
  show _ = List.map (fun i => if i % 4 = 3 then 255 else grayByte g g g) (List.range (4 * w * h))
  apply List.map_congr_left
  intro i hi
  have hi' : i < 4 * w * h := List.mem_range.1 hi
  have e4 : 4 * w * h = 4 * (w * h) := Nat.mul_assoc 4 w h
  unfold grayOut
  by_cases h3 : i % 4 = 3
  · rw [if_pos h3, if_pos h3]
  · rw [if_neg h3, if_neg h3, uniformGray_byte w h g (show 4 * (i / 4) < _ by omega),
      uniformGray_byte w h g (show 4 * (i / 4) + 1 < _ by omega),
      uniformGray_byte w h g (show 4 * (i / 4) + 2 < _ by omega),
      if_neg (by omega), if_neg (by omega), if_neg (by omega)]

/-- The grayscale stage on a uniform gray image. -/
theorem grayscale_uniformGray {w h g : Nat} (hw : 0 < w) (hg : g < 256) :
    grayscale (uniformGray w h g) = some (uniformGray w h (grayByte g g g)) := by
  rw [grayscale_eq _ (uniformGray_wellFormed hw hg), grayPix_uniformGray]
  rfl

/-! ### Degenerate sizes -/

/-- A loop whose body returns its state unchanged returns the initial state. -/
theorem foldlM_id_eq {α β : Type} (step : β → α → Option β) :
    ∀ (ks : List α), (∀ k ∈ ks, ∀ acc, step acc k = some acc) →
      ∀ init, ks.foldlM step init = some init := by
  intro ks
  induction ks with
  | nil =>
    intro _ init
    rfl
  | cons k ks ih =>
    intro h init
    rw [List.foldlM_cons, h k (List.mem_cons_self _ _) init]
    exact ih (fun z hz => h z (List.mem_cons_of_mem _ hz)) init

/-- With fewer than three columns or rows the two loops leave the zeroed
buffer as it is, whatever the buffer holds. -/
theorem convolve_small (img : NRGBA) (h : img.width < 3 ∨ img.height < 3) :
    convolve img = some (List.replicate img.Pix.length 0) := by
  unfold convolve
  apply foldlM_id_eq
  intro y hy acc
  have hy' := List.mem_range'_1.1 hy
  have hw : img.width - 2 = 0 := by omega
  unfold sobelRow
  rw [hw]
  rfl

/-- The call `Bounds()` on the wrapped buffer succeeds exactly when the width
is not zero. -/
theorem processImg_of_convolve (img : NRGBA) {nf : List Nat} (h : convolve img = some nf) :
    processImg img = if img.width = 0 then none else some nf := by
  unfold processImg
  rw [h]
  by_cases hw : img.width = 0
  · simp [ImageData.Bounds, hw]
  · simp [ImageData.Bounds, hw]

/-! ### Windows in terms of R bytes -/

/-- The sum `Gx` of the window centred on `(i+1, j+1)`: its right column minus
its left column. -/
theorem gx_succ (img : NRGBA) (i j : Nat) :
    gx img (i + 1) (j + 1) =
      ((img.red (i + 2) j : Int) + img.red (i + 2) (j + 1) + img.red (i + 2) (j + 2)) -
        ((img.red i j : Int) + img.red i (j + 1) + img.red i (j + 2)) := by
  unfold gx NRGBA.red
  rw [weightedSum_horizontal]
  simp only [Nat.add_sub_cancel, PixOffset_eq]

/-- The sum `Gy` of the window centred on `(i+1, j+1)`: its bottom row minus
its top row. -/
theorem gy_succ (img : NRGBA) (i j : Nat) :
    gy img (i + 1) (j + 1) =
      ((img.red i (j + 2) : Int) + img.red (i + 1) (j + 2) + img.red (i + 2) (j + 2)) -
        ((img.red i j : Int) + img.red (i + 1) j + img.red (i + 2) j) := by
  unfold gy NRGBA.red
  rw [weightedSum_vertical]
  simp only [Nat.add_sub_cancel, PixOffset_eq]

theorem getElem?_eq_getD {l : List Nat} {i : Nat} (h : i < l.length) :
    l[i]? = some (l.getD i 0) := by
  rw [List.getD_eq_getElem?_getD, List.getElem?_eq_getElem h]
  rfl

/-! ### Images with the same windows -/

/-- Two images of the same size whose windows give the same magnitude byte
have the same edge stage output. -/
theorem edgeFrame_congr (img1 img2 : NRGBA) (hw : img1.width = img2.width)
    (hh : img1.height = img2.height) (hlen : img1.Pix.length = img2.Pix.length)
    (hm : ∀ i j, i + 2 < img1.width → j + 2 < img1.height →
      magAt img1 (i + 1) (j + 1) = magAt img2 (i + 1) (j + 1)) :
    edgeFrame img1 = edgeFrame img2 := by
  unfold edgeFrame
  rw [hlen]
  apply List.map_congr_left
  intro b _
  unfold edgeByte
  rw [← hw, ← hh]
  by_cases hc : b / 4 % img1.width + 2 < img1.width ∧ b / 4 / img1.width + 2 < img1.height
  · rw [if_pos hc, if_pos hc, hm _ _ hc.1 hc.2]
  · rw [if_neg hc, if_neg hc]

/-- The magnitude byte of a window is determined by the two sums. -/
theorem magAt_congr (img1 img2 : NRGBA) {x1 y1 x2 y2 : Nat}
    (h1 : gx img1 x1 y1 = gx img2 x2 y2) (h2 : gy img1 x1 y1 = gy img2 x2 y2) :
    magAt img1 x1 y1 = magAt img2 x2 y2 := by
  unfold magAt
  rw [h1, h2]

theorem brighten_length (k : Int) (img : NRGBA) :
    (brighten k img).Pix.length = img.Pix.length := by
  unfold brighten
  rw [List.length_map, List.length_range]

theorem brighten_byte (k : Int) (img : NRGBA) {i : Nat} (hi : i < img.Pix.length) :
    (brighten k img).byte i =
      if i % 4 = 3 then img.byte i else ((img.byte i : Int) + k).toNat := by
  unfold NRGBA.byte brighten
  rw [List.getD_eq_getElem?_getD, List.getElem?_map, List.getElem?_range hi]
  rfl

/-- The R byte of a pixel of the brightened image, as an integer. -/
theorem brighten_red (k : Int) (img : NRGBA)
    (hlen : img.Pix.length = 4 * img.width * img.height)
    (hk : ∀ i, i < img.Pix.length → i % 4 ≠ 3 →
      0 ≤ (img.byte i : Int) + k ∧ (img.byte i : Int) + k ≤ 255)
    {x y : Nat} (hx : x < img.width) (hy : y < img.height) :
    ((brighten k img).red x y : Int) = (img.red x y : Int) + k := by
  have hb := PixOffset_lt img hlen hx hy
  rw [PixOffset_eq] at hb
  have h0 := hk (4 * (y * img.width + x)) (by omega) (by omega)
  unfold NRGBA.red
  show (((brighten k img).byte (4 * (y * img.width + x)) : Nat) : Int) = _
  rw [brighten_byte k img (by omega), if_neg (by omega), Int.toNat_of_nonneg h0.1]

theorem brighten_wellFormed (k : Int) (img : NRGBA) (hwf : WellFormed img)
    (hk : ∀ i, i < img.Pix.length → i % 4 ≠ 3 →
      0 ≤ (img.byte i : Int) + k ∧ (img.byte i : Int) + k ≤ 255) :
    WellFormed (brighten k img) := by
  refine ⟨hwf.1, ?_, ?_⟩
  · rw [brighten_length]
    exact hwf.2.1
  · intro b hb
    unfold brighten at hb
    obtain ⟨i, hi, rfl⟩ := List.mem_map.1 hb
    have hi' : i < img.Pix.length := List.mem_range.1 hi
    show (if i % 4 = 3 then img.byte i else ((img.byte i : Int) + k).toNat) < 256
    by_cases h3 : i % 4 = 3
    · rw [if_pos h3]
      exact byte_lt img hwf i
    · rw [if_neg h3]
      have := hk i hi' h3
      omega

/-! ### Transposition -/

theorem transposeBuf_length (buf : List Nat) (w h : Nat) :
    (transposeBuf buf w h).length = buf.length := by
  unfold transposeBuf
  rw [List.length_map, List.length_range]

/-- Byte `c` of the pixel at column `y`, row `x` of the transposed buffer is
byte `c` of the pixel at column `x`, row `y` of the buffer. -/
theorem transposeBuf_getD (buf : List Nat) {w h : Nat} (hlen : buf.length = 4 * w * h)
    {x y c : Nat} (hx : x < w) (hy : y < h) (hc : c < 4) :
    (transposeBuf buf w h).getD (4 * (x * h + y) + c) 0 = buf.getD (4 * (y * w + x) + c) 0 := by
  have h1 : (x + 1) * h ≤ w * h := Nat.mul_le_mul_right _ hx
  have e1 : (x + 1) * h = x * h + h := by ring
  have e2 : 4 * w * h = 4 * (w * h) := Nat.mul_assoc 4 w h
  obtain ⟨i1, i2, i3⟩ := byte_index (w := h) (x := y) (y := x) (c := c) hy hc
  unfold transposeBuf
  rw [List.getD_eq_getElem?_getD, List.getElem?_map, List.getElem?_range (by omega)]
  simp only [Option.map_some', Option.getD_some]
  rw [i1, i2, i3]

/-- The pixels of the transposed buffer. -/
theorem pixelAt_transposeBuf (buf : List Nat) {w h : Nat} (hlen : buf.length = 4 * w * h)
    {x y : Nat} (hx : x < w) (hy : y < h) :
    pixelAt (transposeBuf buf w h) h y x = pixelAt buf w x y := by
  unfold pixelAt
  have h0 := transposeBuf_getD buf hlen hx hy (c := 0) (by omega)
  rw [Nat.add_zero, Nat.add_zero] at h0
  rw [h0, transposeBuf_getD buf hlen hx hy (c := 1) (by omega),
    transposeBuf_getD buf hlen hx hy (c := 2) (by omega),
    transposeBuf_getD buf hlen hx hy (c := 3) (by omega)]

/-- The R byte at column `y`, row `x` of the transposed image. -/
theorem transpose_red (img : NRGBA) (hlen : img.Pix.length = 4 * img.width * img.height)
    {x y : Nat} (hx : x < img.width) (hy : y < img.height) :
    (transpose img).red y x = img.red x y := by
  have h0 := transposeBuf_getD img.Pix hlen hx hy (c := 0) (by omega)
  rw [Nat.add_zero, Nat.add_zero] at h0
  exact h0

theorem transpose_wellFormed (img : NRGBA) (hwf : WellFormed img) (hh : 0 < img.height) :
    WellFormed (transpose img) := by
  refine ⟨hh, ?_, ?_⟩
  · show (transposeBuf img.Pix img.width img.height).length = 4 * img.height * img.width
    rw [transposeBuf_length, hwf.2.1]
    ring
  · intro b hb
    unfold transpose transposeBuf at hb
    obtain ⟨i, -, rfl⟩ := List.mem_map.1 hb
    exact byte_lt img hwf _

/-- The magnitude byte is symmetric in the two gradients. -/
theorem magnitude_comm (h v : Nat) : magnitude h v = magnitude v h := by
  unfold magnitude
  rw [Nat.add_comm]

/-- The window of the transposed image centred on `(j+1, i+1)` has the magnitude
byte of the window of the image centred on `(i+1, j+1)`. -/
theorem magAt_transpose (img : NRGBA) (hlen : img.Pix.length = 4 * img.width * img.height)
    {i j : Nat} (hi : i + 2 < img.width) (hj : j + 2 < img.height) :
    magAt (transpose img) (j + 1) (i + 1) = magAt img (i + 1) (j + 1) := by
  have r := fun (x y : Nat) (hx : x < img.width) (hy : y < img.height) =>
    transpose_red img hlen hx hy
  have e1 : gx (transpose img) (j + 1) (i + 1) = gy img (i + 1) (j + 1) := by
    rw [gx_succ, gy_succ, r i (j + 2) (by omega) (by omega),
      r (i + 1) (j + 2) (by omega) (by omega), r (i + 2) (j + 2) (by omega) (by omega),
      r i j (by omega) (by omega), r (i + 1) j (by omega) (by omega),
      r (i + 2) j (by omega) (by omega)]
  have e2 : gy (transpose img) (j + 1) (i + 1) = gx img (i + 1) (j + 1) := by
    rw [gy_succ, gx_succ, r (i + 2) j (by omega) (by omega),
      r (i + 2) (j + 1) (by omega) (by omega), r (i + 2) (j + 2) (by omega) (by omega),
      r i j (by omega) (by omega), r i (j + 1) (by omega) (by omega),
      r i (j + 2) (by omega) (by omega)]
  unfold magAt
  rw [e1, e2, magnitude_comm]

/-- The edge stage output of the transposed image is the transpose of the edge
stage output of the image. -/
theorem edgeFrame_transpose (img : NRGBA) (hlen : img.Pix.length = 4 * img.width * img.height) :
    edgeFrame (transpose img) = transposeBuf (edgeFrame img) img.width img.height := by
  have e2 : 4 * img.width * img.height = 4 * (img.height * img.width) := by ring
  rcases Nat.eq_zero_or_pos img.height with h0 | hh
  · have hl : img.Pix.length = 0 := by rw [hlen, h0, Nat.mul_zero]
    have e3 : (edgeFrame (transpose img)).length = 0 := by
      rw [edgeFrame_length]
      show (transposeBuf img.Pix img.width img.height).length = 0
      rw [transposeBuf_length, hl]
    have e4 : (transposeBuf (edgeFrame img) img.width img.height).length = 0 := by
      rw [transposeBuf_length, edgeFrame_length, hl]
    rw [List.length_eq_zero.1 e3, List.length_eq_zero.1 e4]
  unfold edgeFrame transposeBuf
  rw [List.length_map, List.length_range]
  show List.map (edgeByte (transpose img))
    (List.range (transposeBuf img.Pix img.width img.height).length) = _
  rw [transposeBuf_length]
  apply List.map_congr_left
  intro b hb
  have hb' : b < img.Pix.length := List.mem_range.1 hb
  have hy : b / 4 % img.height < img.height := Nat.mod_lt _ hh
  have hx : b / 4 / img.height < img.width :=
    (Nat.div_lt_iff_lt_mul hh).2 (by rw [Nat.mul_comm]; omega)
  have hg := edgeFrame_getD img hlen hx hy (c := b % 4) (Nat.mod_lt _ (by norm_num))
  unfold edgeFrame at hg
  rw [hg]
  unfold edgeByte
  show (if b / 4 % img.height + 2 < img.height ∧ b / 4 / img.height + 2 < img.width then
      if b % 4 = 3 then 100
      else magAt (transpose img) (b / 4 % img.height + 1) (b / 4 / img.height + 1)
    else 0) = _
  by_cases hc : b / 4 / img.height + 2 < img.width ∧ b / 4 % img.height + 2 < img.height
  · rw [if_pos hc, if_pos ⟨hc.2, hc.1⟩, magAt_transpose img hlen hc.1 hc.2]
  · rw [if_neg hc, if_neg (fun h => hc ⟨h.2, h.1⟩)]

/-! ## The claims -/

/-- C1 (the code departs from the claim): on the 3x3 image `rightEdge3` the
window centred on the only interior pixel (1,1) has magnitude byte 253, yet the
edge stage leaves the output pixel (1,1) as four zero bytes and stores
(253,253,253,100) at pixel (0,0), the upper-left neighbour. -/
theorem C1_interior_result_stored_at_upper_left :
    ∃ out, processImg rightEdge3 = some out ∧ magAt rightEdge3 1 1 = 253 ∧
      pixelAt out 3 1 1 = [0, 0, 0, 0] ∧
      pixelAt out 3 1 1 ≠ [magAt rightEdge3 1 1, magAt rightEdge3 1 1, magAt rightEdge3 1 1, 100] ∧
      pixelAt out 3 0 0 = [magAt rightEdge3 1 1, magAt rightEdge3 1 1, magAt rightEdge3 1 1, 100] := by
  have hwf : WellFormed rightEdge3 := by decide
  have hm : magAt rightEdge3 1 1 = 253 := by
    rw [magAt_of_sums rightEdge3 hwf (a := 765) (b := 0) (by decide) (by decide)]
    norm_num
  have h11 : pixelAt (edgeFrame rightEdge3) 3 1 1 = [0, 0, 0, 0] :=
    (pixelAt_edgeFrame rightEdge3 hwf.2.1 (x := 1) (y := 1) (by decide) (by decide)).trans
      (if_neg (by decide))
  refine ⟨edgeFrame rightEdge3, processImg_eq rightEdge3 hwf, hm, h11, ?_, ?_⟩
  · rw [h11, hm]
    decide
  · exact (pixelAt_edgeFrame rightEdge3 hwf.2.1 (x := 0) (y := 0) (by decide) (by decide)).trans
      (if_pos (by decide))

/-- C3 (the code departs from the claim): on the 3x3 image `rightEdge3` the
border pixel (0,0) of the edge stage output is written and holds
(253,253,253,100), not four zero bytes. -/
theorem C3_border_pixel_written :
    ∃ out, processImg rightEdge3 = some out ∧ pixelAt out 3 0 0 = [253, 253, 253, 100] := by
  have hwf : WellFormed rightEdge3 := by decide
  have hm : magAt rightEdge3 1 1 = 253 := by
    rw [magAt_of_sums rightEdge3 hwf (a := 765) (b := 0) (by decide) (by decide)]
    norm_num
  refine ⟨edgeFrame rightEdge3, processImg_eq rightEdge3 hwf, ?_⟩
  rw [← hm]
  exact (pixelAt_edgeFrame rightEdge3 hwf.2.1 (x := 0) (y := 0) (by decide) (by decide)).trans
    (if_pos (by decide))

/-- C5: for every 3x3 window of a well-formed image the byte that the edge
stage stores for it (at the offset `idx1` of the loop body) is
`floor(sqrt(Gx^2 + Gy^2))` reduced modulo 256; and on the grayscale image
`rightEdge3`, whose window has a black left column and a white right column
(`Gx = 765`, `Gy = 0`), that byte is 253, not a clamped 255. -/
theorem C5_magnitude_wraps_mod_256 :
    (∀ img : NRGBA, WellFormed img → ∀ x y : Nat, 1 ≤ x → x + 1 < img.width → 1 ≤ y →
      y + 1 < img.height →
        ∃ out, processImg img = some out ∧
          out.getD (img.PixOffset (x - 1) (y - 1)) 0 =
            Nat.sqrt ((gx img x y) ^ 2 + (gy img x y) ^ 2).toNat % 256) ∧
      (WellFormed rightEdge3 ∧ gx rightEdge3 1 1 = 765 ∧ gy rightEdge3 1 1 = 0 ∧
        ∃ out, processImg rightEdge3 = some out ∧
          out.getD (rightEdge3.PixOffset 0 0) 0 = 253) := by
  have gen : ∀ img : NRGBA, WellFormed img → ∀ x y : Nat, 1 ≤ x → x + 1 < img.width → 1 ≤ y →
      y + 1 < img.height →
        (edgeFrame img).getD (img.PixOffset (x - 1) (y - 1)) 0 =
          Nat.sqrt ((gx img x y) ^ 2 + (gy img x y) ^ 2).toNat % 256 := by
    intro img hwf x y hx1 hx2 hy1 hy2
    have h := edgeFrame_getD img hwf.2.1 (x := x - 1) (y := y - 1) (c := 0) (by omega) (by omega)
      (by omega)
    rw [Nat.add_zero, ← PixOffset_eq, if_pos (by omega), if_neg (by omega)] at h
    rw [h, ← magAt_eq img hwf]
    congr 1 <;> omega
  refine ⟨fun img hwf x y hx1 hx2 hy1 hy2 =>
    ⟨edgeFrame img, processImg_eq img hwf, gen img hwf x y hx1 hx2 hy1 hy2⟩, ?_⟩
  have hwf : WellFormed rightEdge3 := by decide
  have e1 : gx rightEdge3 1 1 = 765 := by decide
  have e2 : gy rightEdge3 1 1 = 0 := by decide
  refine ⟨hwf, e1, e2, edgeFrame rightEdge3, processImg_eq rightEdge3 hwf, ?_⟩
  have h := edgeFrame_getD rightEdge3 hwf.2.1 (x := 0) (y := 0) (c := 0) (by decide) (by decide)
    (by decide)
  rw [if_pos (by decide), if_neg (by decide)] at h
  rw [show rightEdge3.PixOffset 0 0 = 4 * (0 * rightEdge3.width + 0) + 0 from rfl, h,
    magAt_of_sums rightEdge3 hwf (a := 765) (b := 0) (by decide) (by decide)]
  norm_num

/-- C5 at a concrete window: the centre window of `rightEdge3`. -/
theorem C5_magnitude_wraps_mod_256_witness :
    ∃ out, processImg rightEdge3 = some out ∧
      out.getD (rightEdge3.PixOffset (1 - 1) (1 - 1)) 0 =
        Nat.sqrt ((gx rightEdge3 1 1) ^ 2 + (gy rightEdge3 1 1) ^ 2).toNat % 256 :=
  C5_magnitude_wraps_mod_256.1 rightEdge3 (by decide) 1 1 (by decide) (by decide) (by decide)
    (by decide)

/-- C9 (the code departs from the claim): on the 5x4 image with a white line in
column 2, the interior output pixel (1,1), in the column left of the line, has
zero magnitude, and the interior output pixel (2,1), in the column of the line
itself, has magnitude byte 253. -/
theorem C9_line_response_shifted :
    ∃ out, processImg (verticalLine 5 4 2) = some out ∧
      pixelAt out 5 1 1 = [0, 0, 0, 100] ∧ pixelAt out 5 2 1 = [253, 253, 253, 100] := by
  have hwf : WellFormed (verticalLine 5 4 2) := by decide
  have m1 : magAt (verticalLine 5 4 2) 2 2 = 0 := by
    rw [magAt_of_sums _ hwf (a := 0) (b := 0) (by decide) (by decide)]
    norm_num
  have m2 : magAt (verticalLine 5 4 2) 3 2 = 253 := by
    rw [magAt_of_sums _ hwf (a := 765) (b := 0) (by decide) (by decide)]
    norm_num
  refine ⟨edgeFrame (verticalLine 5 4 2), processImg_eq _ hwf, ?_, ?_⟩
  · rw [← m1]
    exact (pixelAt_edgeFrame (verticalLine 5 4 2) hwf.2.1 (x := 1) (y := 1) (by decide)
      (by decide)).trans (if_pos (by decide))
  · rw [← m2]
    exact (pixelAt_edgeFrame (verticalLine 5 4 2) hwf.2.1 (x := 2) (y := 1) (by decide)
      (by decide)).trans (if_pos (by decide))

/-- C2 (amended): on a well-formed buffer grayscale maps the pixel
`(r, g, b, a)` at `(x, y)` to `(v, v, v, 255)` at the same position, where `v`
is the `float64` value of `0.299*r + 0.587*g + 0.114*b` truncated to a byte and
does not depend on `a`; `v` equals `floor((299r + 587g + 114b) / 1000)`, except
that it may be one less when 1000 divides `299r + 587g + 114b`. -/
theorem C2_gray_value_is_truncated_float_luma (img : NRGBA) (hwf : WellFormed img)
    (x y r g b a : Nat) (hx : x < img.width) (hy : y < img.height)
    (hpx : pixelAt img.Pix img.width x y = [r, g, b, a]) :
    ∃ out, grayscale img = some out ∧ out.width = img.width ∧ out.height = img.height ∧
      pixelAt out.Pix out.width x y = [grayByte r g b, grayByte r g b, grayByte r g b, 255] ∧
      (grayByte r g b = (299 * r + 587 * g + 114 * b) / 1000 ∨
        ((299 * r + 587 * g + 114 * b) % 1000 = 0 ∧
          grayByte r g b + 1 = (299 * r + 587 * g + 114 * b) / 1000)) := by
  rw [pixelAt_Pix] at hpx
  simp only [List.cons.injEq, and_true] at hpx
  obtain ⟨h0, h1, h2, -⟩ := hpx
  refine ⟨⟨grayPix img, img.width, img.height⟩, grayscale_eq img hwf, rfl, rfl, ?_, ?_⟩
  · show pixelAt (grayPix img) img.width x y = _
    rw [pixelAt_grayPix img hwf hx hy, h0, h1, h2]
  · have b0 := byte_lt img hwf (4 * (y * img.width + x))
    have b1 := byte_lt img hwf (4 * (y * img.width + x) + 1)
    have b2 := byte_lt img hwf (4 * (y * img.width + x) + 2)
    rw [h0] at b0
    rw [h1] at b1
    rw [h2] at b2
    exact grayByte_near b0 b1 b2

/-- C2 at a concrete input: the 1x1 image with the pixel (1,1,1,255). -/
theorem C2_gray_value_is_truncated_float_luma_witness :
    ∃ out, grayscale ⟨[1, 1, 1, 255], 1, 1⟩ = some out ∧ out.width = 1 ∧ out.height = 1 ∧
      pixelAt out.Pix out.width 0 0 = [grayByte 1 1 1, grayByte 1 1 1, grayByte 1 1 1, 255] ∧
      (grayByte 1 1 1 = (299 * 1 + 587 * 1 + 114 * 1) / 1000 ∨
        ((299 * 1 + 587 * 1 + 114 * 1) % 1000 = 0 ∧
          grayByte 1 1 1 + 1 = (299 * 1 + 587 * 1 + 114 * 1) / 1000)) :=
  C2_gray_value_is_truncated_float_luma ⟨[1, 1, 1, 255], 1, 1⟩ (by decide) 0 0 1 1 1 255
    (by decide) (by decide) (by decide)

/-- C2 as stated fails: the pixel (1,1,1,255) is mapped to (0,0,0,255), while
`floor((299 + 587 + 114) / 1000)` is 1. -/
theorem C2_counterexample :
    grayscale ⟨[1, 1, 1, 255], 1, 1⟩ = some ⟨[0, 0, 0, 255], 1, 1⟩ ∧
      (299 * 1 + 587 * 1 + 114 * 1) / 1000 = 1 := by
  decide

/-- C4: on a well-formed buffer the grayscale stage returns a buffer every
pixel of which has R = G = B and alpha 255. -/
theorem C4_gray_pixels_equal_channels_opaque (img : NRGBA) (hwf : WellFormed img) :
    ∃ out, grayscale img = some out ∧
      ∀ x y, x < out.width → y < out.height →
        ∃ v, pixelAt out.Pix out.width x y = [v, v, v, 255] := by
  refine ⟨⟨grayPix img, img.width, img.height⟩, grayscale_eq img hwf, ?_⟩
  intro x y hx hy
  exact ⟨_, pixelAt_grayPix img hwf hx hy⟩

/-- C4 at a concrete input: a 2x1 image with two coloured, translucent
pixels. -/
theorem C4_gray_pixels_equal_channels_opaque_witness :
    ∃ out, grayscale ⟨[10, 200, 30, 0, 255, 0, 7, 99], 2, 1⟩ = some out ∧
      ∀ x y, x < out.width → y < out.height →
        ∃ v, pixelAt out.Pix out.width x y = [v, v, v, 255] :=
  C4_gray_pixels_equal_channels_opaque ⟨[10, 200, 30, 0, 255, 0, 7, 99], 2, 1⟩ (by decide)

/-- C6 (amended): applying grayscale twice keeps the dimensions, the length and
the alpha bytes of the first result, and each byte of the second result is the
corresponding byte of the first result or one less. -/
theorem C6_grayscale_twice_within_one (img : NRGBA) (hwf : WellFormed img) :
    ∃ once twice, grayscale img = some once ∧ grayscale once = some twice ∧
      twice.width = once.width ∧ twice.height = once.height ∧
      twice.Pix.length = once.Pix.length ∧
      ∀ i, i < once.Pix.length →
        (i % 4 = 3 → twice.Pix.getD i 0 = once.Pix.getD i 0) ∧
        (twice.Pix.getD i 0 = once.Pix.getD i 0 ∨
          twice.Pix.getD i 0 + 1 = once.Pix.getD i 0) := by
  have hwf1 := grayPix_wellFormed img hwf
  refine ⟨⟨grayPix img, img.width, img.height⟩,
    ⟨grayPix ⟨grayPix img, img.width, img.height⟩, img.width, img.height⟩,
    grayscale_eq img hwf, grayscale_eq _ hwf1, rfl, rfl, ?_, ?_⟩
  · show (grayPix ⟨grayPix img, img.width, img.height⟩).length = (grayPix img).length
    rw [grayPix_length]
  · intro i hi
    have hi' : i < img.Pix.length := by
      have : i < (grayPix img).length := hi
      rwa [grayPix_length] at this
    show (i % 4 = 3 → (grayPix ⟨grayPix img, img.width, img.height⟩).getD i 0 =
        (grayPix img).getD i 0) ∧
      ((grayPix ⟨grayPix img, img.width, img.height⟩).getD i 0 = (grayPix img).getD i 0 ∨
        (grayPix ⟨grayPix img, img.width, img.height⟩).getD i 0 + 1 = (grayPix img).getD i 0)
    rw [grayPix_getD _ (show i < (grayPix img).length from hi), grayPix_getD img hi']
    have hlen4 : img.Pix.length = 4 * (img.width * img.height) := by
      rw [hwf.2.1, Nat.mul_assoc]
    by_cases h3 : i % 4 = 3
    · have e : grayOut ⟨grayPix img, img.width, img.height⟩ i = 255 := by
        unfold grayOut
        rw [if_pos h3]
      have e' : grayOut img i = 255 := by
        unfold grayOut
        rw [if_pos h3]
      rw [e, e']
      exact ⟨fun _ => rfl, Or.inl rfl⟩
    · refine ⟨fun h => absurd h h3, ?_⟩
      have q := grayOut_quad img (i / 4)
      simp only [List.cons.injEq, and_true] at q
      obtain ⟨q0, q1, q2, -⟩ := q
      have e' : grayOut img i = grayByte (img.byte (4 * (i / 4))) (img.byte (4 * (i / 4) + 1))
          (img.byte (4 * (i / 4) + 2)) := by
        unfold grayOut
        rw [if_neg h3]
      have e : grayOut ⟨grayPix img, img.width, img.height⟩ i =
          grayByte (grayOut img (4 * (i / 4))) (grayOut img (4 * (i / 4) + 1))
            (grayOut img (4 * (i / 4) + 2)) := by
        unfold grayOut
        rw [if_neg h3]
        show grayByte ((grayPix img).getD (4 * (i / 4)) 0) ((grayPix img).getD (4 * (i / 4) + 1) 0)
          ((grayPix img).getD (4 * (i / 4) + 2) 0) = _
        rw [grayPix_getD img (show 4 * (i / 4) < _ by omega),
          grayPix_getD img (show 4 * (i / 4) + 1 < _ by omega),
          grayPix_getD img (show 4 * (i / 4) + 2 < _ by omega)]
        rfl
      rw [e, e', ← q0, ← q1, ← q2]
      exact grayByte_diag (grayByte_lt _ _ _)

/-- C6 at a concrete input: the 1x1 image with the pixel (128,128,128,255). -/
theorem C6_grayscale_twice_within_one_witness :
    ∃ once twice, grayscale ⟨[128, 128, 128, 255], 1, 1⟩ = some once ∧
      grayscale once = some twice ∧
      twice.width = once.width ∧ twice.height = once.height ∧
      twice.Pix.length = once.Pix.length ∧
      ∀ i, i < once.Pix.length →
        (i % 4 = 3 → twice.Pix.getD i 0 = once.Pix.getD i 0) ∧
        (twice.Pix.getD i 0 = once.Pix.getD i 0 ∨
          twice.Pix.getD i 0 + 1 = once.Pix.getD i 0) :=
  C6_grayscale_twice_within_one ⟨[128, 128, 128, 255], 1, 1⟩ (by decide)

/-- C6 as stated fails: grayscale maps (128,128,128,255) to (127,127,127,255)
and maps that to (126,126,126,255). -/
theorem C6_counterexample :
    grayscale ⟨[128, 128, 128, 255], 1, 1⟩ = some ⟨[127, 127, 127, 255], 1, 1⟩ ∧
      grayscale ⟨[127, 127, 127, 255], 1, 1⟩ = some ⟨[126, 126, 126, 255], 1, 1⟩ ∧
      ([126, 126, 126, 255] : List Nat) ≠ [127, 127, 127, 255] := by
  decide

/-- C7: on a well-formed buffer both stages return a buffer of exactly the
length of the input buffer. -/
theorem C7_output_length_equals_input_length (img : NRGBA) (hwf : WellFormed img) :
    (∃ out, grayscale img = some out ∧ out.Pix.length = img.Pix.length) ∧
      (∃ newFrame, processImg img = some newFrame ∧ newFrame.length = img.Pix.length) :=
  ⟨⟨⟨grayPix img, img.width, img.height⟩, grayscale_eq img hwf, grayPix_length img⟩,
    ⟨edgeFrame img, processImg_eq img hwf, edgeFrame_length img⟩⟩

/-- C7 at a concrete input: the 3x3 image `rightEdge3`. -/
theorem C7_output_length_equals_input_length_witness :
    (∃ out, grayscale rightEdge3 = some out ∧ out.Pix.length = rightEdge3.Pix.length) ∧
      (∃ newFrame, processImg rightEdge3 = some newFrame ∧
        newFrame.length = rightEdge3.Pix.length) :=
  C7_output_length_equals_input_length rightEdge3 (by decide)

/-- C8: on a well-formed buffer all of whose pixels are the same colour
`(r, g, b, a)`, the window centred on every interior pixel has `Gx = 0`,
`Gy = 0` and magnitude byte 0, and every interior pixel of the edge stage
output has R = G = B = 0; its alpha is 100 where a window result is stored
(`x + 2 < W` and `y + 2 < H`) and 0 where nothing is stored. -/
theorem C8_uniform_input_zero_magnitude (img : NRGBA) (hwf : WellFormed img) (r g b a : Nat)
    (huni : ∀ x, x < img.width → ∀ y, y < img.height →
      pixelAt img.Pix img.width x y = [r, g, b, a]) :
    ∃ out, processImg img = some out ∧
      ∀ x y, 1 ≤ x → x + 1 < img.width → 1 ≤ y → y + 1 < img.height →
        gx img x y = 0 ∧ gy img x y = 0 ∧ magAt img x y = 0 ∧
        pixelAt out img.width x y =
          [0, 0, 0, if x + 2 < img.width ∧ y + 2 < img.height then 100 else 0] := by
  have hr : ∀ x y, x < img.width → y < img.height → img.byte (img.PixOffset x y) = r := by
    intro x y hx hy
    have h := huni x hx y hy
    rw [pixelAt_Pix] at h
    simp only [List.cons.injEq, and_true] at h
    rw [PixOffset_eq]
    exact h.1
  refine ⟨edgeFrame img, processImg_eq img hwf, ?_⟩
  intro x y hx1 hx hy1 hy
  have a1 := hr (x - 1) (y - 1) (by omega) (by omega)
  have a2 := hr x (y - 1) (by omega) (by omega)
  have a3 := hr (x + 1) (y - 1) (by omega) (by omega)
  have a4 := hr (x - 1) y (by omega) (by omega)
  have a5 := hr x y (by omega) (by omega)
  have a6 := hr (x + 1) y (by omega) (by omega)
  have a7 := hr (x - 1) (y + 1) (by omega) (by omega)
  have a8 := hr x (y + 1) (by omega) (by omega)
  have a9 := hr (x + 1) (y + 1) (by omega) (by omega)
  refine ⟨?_, ?_, magAt_uniform img r hr hx1 hx hy1 hy, ?_⟩
  · unfold gx
    rw [a1, a2, a3, a4, a5, a6, a7, a8, a9, weightedSum_horizontal]
    omega
  · unfold gy
    rw [a1, a2, a3, a4, a5, a6, a7, a8, a9, weightedSum_vertical]
    omega
  · rw [pixelAt_edgeFrame_uniform img hwf.2.1 r hr (by omega) (by omega)]
    by_cases hc : x + 2 < img.width ∧ y + 2 < img.height
    · rw [if_pos hc, if_pos hc]
    · rw [if_neg hc, if_neg hc]

/-- C8 at a concrete input: the 5x4 image of colour (7,1,2,3).  The interior
pixels (1,1) and (2,1) carry stored window results and are `(0,0,0,100)`; the
interior pixels (3,1) and (2,2) carry none and are four zero bytes. -/
theorem C8_uniform_input_zero_magnitude_witness :
    ∃ out, processImg ⟨(List.replicate 20 [7, 1, 2, 3]).flatten, 5, 4⟩ = some out ∧
      magAt ⟨(List.replicate 20 [7, 1, 2, 3]).flatten, 5, 4⟩ 2 2 = 0 ∧
      pixelAt out 5 1 1 = [0, 0, 0, 100] ∧ pixelAt out 5 2 1 = [0, 0, 0, 100] ∧
      pixelAt out 5 3 1 = [0, 0, 0, 0] ∧ pixelAt out 5 2 2 = [0, 0, 0, 0] := by
  obtain ⟨out, h1, h2⟩ :=
    C8_uniform_input_zero_magnitude ⟨(List.replicate 20 [7, 1, 2, 3]).flatten, 5, 4⟩ (by decide)
      7 1 2 3 (by decide)
  exact ⟨out, h1, (h2 2 2 (by decide) (by decide) (by decide) (by decide)).2.2.1,
    (h2 1 1 (by decide) (by decide) (by decide) (by decide)).2.2.2,
    (h2 2 1 (by decide) (by decide) (by decide) (by decide)).2.2.2,
    (h2 3 1 (by decide) (by decide) (by decide) (by decide)).2.2.2,
    (h2 2 2 (by decide) (by decide) (by decide) (by decide)).2.2.2⟩

/-- C10 (amended): for `W, H >= 3` and a level `g`, grayscale maps the uniform
image `(g, g, g, 255)` to the uniform image `(v, v, v, 255)` of the same size,
where `v` is `g` or `g - 1`; the edge stage on that result returns a buffer of
the same length in which every pixel has R = G = B = 0 and alpha 0 or 100, the
pixels of the last column and of the last row are four zero bytes, and the
pixels with `1 <= x <= W-3` and `1 <= y <= H-3` are `(0,0,0,100)`.  For the 5x5
image with `g = 128` the level after grayscale is 127. -/
theorem C10_uniform_gray_end_to_end (w h g : Nat) (hw : 3 ≤ w) (hh : 3 ≤ h) (hg : g < 256) :
    ∃ v out, (v = g ∨ v + 1 = g) ∧
      grayscale (uniformGray w h g) = some (uniformGray w h v) ∧
      processImg (uniformGray w h v) = some out ∧
      out.length = (uniformGray w h g).Pix.length ∧
      (∀ x y, x < w → y < h →
        pixelAt out w x y = [0, 0, 0, 0] ∨ pixelAt out w x y = [0, 0, 0, 100]) ∧
      (∀ x y, x < w → y < h → (x = w - 1 ∨ y = h - 1) → pixelAt out w x y = [0, 0, 0, 0]) ∧
      (∀ x y, 1 ≤ x → x + 2 < w → 1 ≤ y → y + 2 < h → pixelAt out w x y = [0, 0, 0, 100]) ∧
      grayscale (uniformGray 5 5 128) = some (uniformGray 5 5 127) := by
  have hv : grayByte g g g < 256 := grayByte_lt g g g
  have hwf : WellFormed (uniformGray w h g) := uniformGray_wellFormed (by omega) hg
  have hwf' : WellFormed (uniformGray w h (grayByte g g g)) :=
    uniformGray_wellFormed (by omega) hv
  have hpx : ∀ x y, x < w → y < h →
      pixelAt (edgeFrame (uniformGray w h (grayByte g g g))) w x y =
        if x + 2 < w ∧ y + 2 < h then [0, 0, 0, 100] else [0, 0, 0, 0] := fun x y hx hy =>
    pixelAt_edgeFrame_uniform (uniformGray w h (grayByte g g g)) hwf'.2.1 (grayByte g g g)
      (uniformGray_red w h (grayByte g g g)) hx hy
  refine ⟨grayByte g g g, edgeFrame (uniformGray w h (grayByte g g g)), grayByte_diag hg,
    grayscale_uniformGray (by omega) hg, processImg_eq _ hwf', ?_, ?_, ?_, ?_, ?_⟩
  · rw [edgeFrame_length, uniformGray_length, uniformGray_length]
  · intro x y hx hy
    rw [hpx x y hx hy]
    split
    · exact Or.inr rfl
    · exact Or.inl rfl
  · intro x y hx hy hlast
    rw [hpx x y hx hy, if_neg (by omega)]
  · intro x y _ hx _ hy
    rw [hpx x y (by omega) (by omega), if_pos ⟨hx, hy⟩]
  · rw [grayscale_uniformGray (by norm_num) (by norm_num)]
    have e : grayByte 128 128 128 = 127 := by decide
    rw [e]

/-- C10 at a concrete input: the 5x5 image of level 128. -/
theorem C10_uniform_gray_end_to_end_witness :
    ∃ v out, (v = 128 ∨ v + 1 = 128) ∧
      grayscale (uniformGray 5 5 128) = some (uniformGray 5 5 v) ∧
      processImg (uniformGray 5 5 v) = some out ∧
      out.length = (uniformGray 5 5 128).Pix.length ∧
      (∀ x y, x < 5 → y < 5 →
        pixelAt out 5 x y = [0, 0, 0, 0] ∨ pixelAt out 5 x y = [0, 0, 0, 100]) ∧
      (∀ x y, x < 5 → y < 5 → (x = 5 - 1 ∨ y = 5 - 1) → pixelAt out 5 x y = [0, 0, 0, 0]) ∧
      (∀ x y, 1 ≤ x → x + 2 < 5 → 1 ≤ y → y + 2 < 5 → pixelAt out 5 x y = [0, 0, 0, 100]) ∧
      grayscale (uniformGray 5 5 128) = some (uniformGray 5 5 127) :=
  C10_uniform_gray_end_to_end 5 5 128 (by decide) (by decide) (by decide)

/-- C10 as stated fails: grayscale does not leave the 5x5 image of level 128
unchanged; it returns the image of level 127. -/
theorem C10_counterexample :
    grayscale (uniformGray 5 5 128) = some (uniformGray 5 5 127) ∧
      (uniformGray 5 5 127).Pix.getD 0 0 = 127 ∧ (uniformGray 5 5 128).Pix.getD 0 0 = 128 := by
  refine ⟨?_, ?_, ?_⟩
  · rw [grayscale_uniformGray (by norm_num) (by norm_num)]
    have e : grayByte 128 128 128 = 127 := by decide
    rw [e]
  · exact uniformGray_byte 5 5 127 (i := 0) (by norm_num)
  · exact uniformGray_byte 5 5 128 (i := 0) (by norm_num)

/-- C11 (amended): for every input whose width or height is less than 3 the
two loops execute no iteration of the loop body (one of the two ranges is
empty), index nothing, and leave the all-zero buffer of the input's length;
when the width is positive the edge stage completes with that buffer, and when
the width is 0 it does not complete: `Bounds()` divides by zero. -/
theorem C11_small_images_all_zero (img : NRGBA) (h : img.width < 3 ∨ img.height < 3) :
    (List.range' 1 (img.height - 2) = [] ∨ List.range' 1 (img.width - 2) = []) ∧
      convolve img = some (List.replicate img.Pix.length 0) ∧
      (0 < img.width → processImg img = some (List.replicate img.Pix.length 0)) ∧
      (img.width = 0 → processImg img = none) := by
  refine ⟨?_, convolve_small img h, ?_, ?_⟩
  · rcases h with h | h
    · right
      have e : img.width - 2 = 0 := by omega
      rw [e]
      rfl
    · left
      have e : img.height - 2 = 0 := by omega
      rw [e]
      rfl
  · intro hw
    rw [processImg_of_convolve img (convolve_small img h), if_neg (by omega)]
  · intro hw
    rw [processImg_of_convolve img (convolve_small img h), if_pos hw]

/-- C11 at a concrete input: a 2x4 image. -/
theorem C11_small_images_all_zero_witness :
    (List.range' 1 ((uniformGray 2 4 9).height - 2) = [] ∨
        List.range' 1 ((uniformGray 2 4 9).width - 2) = []) ∧
      convolve (uniformGray 2 4 9) = some (List.replicate (uniformGray 2 4 9).Pix.length 0) ∧
      (0 < (uniformGray 2 4 9).width →
        processImg (uniformGray 2 4 9) = some (List.replicate (uniformGray 2 4 9).Pix.length 0)) ∧
      ((uniformGray 2 4 9).width = 0 → processImg (uniformGray 2 4 9) = none) :=
  C11_small_images_all_zero (uniformGray 2 4 9) (by decide)

/-- C11 as stated fails for width 0: on the empty image of width 0 the edge
stage does not complete, because `Bounds()` divides by the width. -/
theorem C11_counterexample :
    (⟨[], 0, 0⟩ : NRGBA).width = 0 ∧ convolve ⟨[], 0, 0⟩ = some [] ∧
      processImg ⟨[], 0, 0⟩ = none := by
  decide

/-- C12: on a well-formed buffer (positive width, any height, `4 * W * H`
bytes) both transforms complete, so no index is out of range and no division
is by zero; explicitly, the nine offsets read and the four bytes written for
every interior pixel lie inside the buffer, the three bytes read at every
index `i = 4k < leng` lie inside the buffer, and the width that `Bounds()` and
the counter update divide by is not zero. -/
theorem C12_transforms_total (img : NRGBA) (hwf : WellFormed img) :
    (∃ out, grayscale img = some out) ∧ (∃ newFrame, processImg img = some newFrame) ∧
      (∀ x y, 1 ≤ x → x + 1 < img.width → 1 ≤ y → y + 1 < img.height →
        ∀ dx dy, dx ≤ 2 → dy ≤ 2 →
          img.PixOffset (x - 1 + dx) (y - 1 + dy) < img.Pix.length ∧
          img.PixOffset (x - 1) (y - 1) + 3 < img.Pix.length) ∧
      (∀ k, 4 * k < img.Pix.length → 4 * k + 2 < img.Pix.length) ∧
      img.width ≠ 0 := by
  refine ⟨⟨_, grayscale_eq img hwf⟩, ⟨_, processImg_eq img hwf⟩, ?_, ?_,
    Nat.pos_iff_ne_zero.1 hwf.1⟩
  · intro x y hx1 hx2 hy1 hy2 dx dy hdx hdy
    have h1 := PixOffset_lt img hwf.2.1 (x := x - 1 + dx) (y := y - 1 + dy) (by omega) (by omega)
    have h2 := PixOffset_lt img hwf.2.1 (x := x - 1) (y := y - 1) (by omega) (by omega)
    exact ⟨by omega, h2⟩
  · intro k hk
    have e := hwf.2.1
    rw [Nat.mul_assoc] at e
    omega

/-- C12 at a concrete input: the 3x3 image `rightEdge3`. -/
theorem C12_transforms_total_witness :
    (∃ out, grayscale rightEdge3 = some out) ∧
      (∃ newFrame, processImg rightEdge3 = some newFrame) ∧
      (∀ x y, 1 ≤ x → x + 1 < rightEdge3.width → 1 ≤ y → y + 1 < rightEdge3.height →
        ∀ dx dy, dx ≤ 2 → dy ≤ 2 →
          rightEdge3.PixOffset (x - 1 + dx) (y - 1 + dy) < rightEdge3.Pix.length ∧
          rightEdge3.PixOffset (x - 1) (y - 1) + 3 < rightEdge3.Pix.length) ∧
      (∀ k, 4 * k < rightEdge3.Pix.length → 4 * k + 2 < rightEdge3.Pix.length) ∧
      rightEdge3.width ≠ 0 :=
  C12_transforms_total rightEdge3 (by decide)

/-- C13: on a well-formed buffer the output pixel at `(i, j)` (inside the
rectangle) is `(m, m, m, 100)` when `i + 2 < W` and `j + 2 < H`, where
`m = floor(sqrt(Gx^2 + Gy^2)) mod 256`, `Gx` is the right column minus the left
column and `Gy` the bottom row minus the top row of the R bytes of the 3x3
window centred on `(i+1, j+1)`; otherwise the pixel is four zero bytes. -/
theorem C13_exact_placement (img : NRGBA) (hwf : WellFormed img) :
    ∃ out, processImg img = some out ∧
      ∀ i j, i < img.width → j < img.height →
        (i + 2 < img.width ∧ j + 2 < img.height →
          ∃ m Gx Gy,
            Gx = ((img.red (i + 2) j : Int) + img.red (i + 2) (j + 1) + img.red (i + 2) (j + 2)) -
              ((img.red i j : Int) + img.red i (j + 1) + img.red i (j + 2)) ∧
            Gy = ((img.red i (j + 2) : Int) + img.red (i + 1) (j + 2) + img.red (i + 2) (j + 2)) -
              ((img.red i j : Int) + img.red (i + 1) j + img.red (i + 2) j) ∧
            m = Nat.sqrt (Gx ^ 2 + Gy ^ 2).toNat % 256 ∧
            pixelAt out img.width i j = [m, m, m, 100]) ∧
        (¬(i + 2 < img.width ∧ j + 2 < img.height) →
          pixelAt out img.width i j = [0, 0, 0, 0]) := by
  refine ⟨edgeFrame img, processImg_eq img hwf, ?_⟩
  intro i j hi hj
  rw [pixelAt_edgeFrame img hwf.2.1 hi hj]
  constructor
  · intro h
    refine ⟨_, _, _, rfl, rfl, rfl, ?_⟩
    rw [if_pos h, magAt_eq img hwf, gx_succ, gy_succ]
  · intro h
    rw [if_neg h]

/-- C13 at a concrete input: the 3x3 image `rightEdge3`. -/
theorem C13_exact_placement_witness :
    ∃ out, processImg rightEdge3 = some out ∧
      ∀ i j, i < rightEdge3.width → j < rightEdge3.height →
        (i + 2 < rightEdge3.width ∧ j + 2 < rightEdge3.height →
          ∃ m Gx Gy,
            Gx = ((rightEdge3.red (i + 2) j : Int) + rightEdge3.red (i + 2) (j + 1) +
                rightEdge3.red (i + 2) (j + 2)) -
              ((rightEdge3.red i j : Int) + rightEdge3.red i (j + 1) +
                rightEdge3.red i (j + 2)) ∧
            Gy = ((rightEdge3.red i (j + 2) : Int) + rightEdge3.red (i + 1) (j + 2) +
                rightEdge3.red (i + 2) (j + 2)) -
              ((rightEdge3.red i j : Int) + rightEdge3.red (i + 1) j +
                rightEdge3.red (i + 2) j) ∧
            m = Nat.sqrt (Gx ^ 2 + Gy ^ 2).toNat % 256 ∧
            pixelAt out rightEdge3.width i j = [m, m, m, 100]) ∧
        (¬(i + 2 < rightEdge3.width ∧ j + 2 < rightEdge3.height) →
          pixelAt out rightEdge3.width i j = [0, 0, 0, 0]) :=
  C13_exact_placement rightEdge3 (by decide)

/-- C18: for an `ImageData` of positive width and a position inside its
bounds, the three bytes that `At` reads lie inside the buffer and `At` returns
the colour made of those bytes with alpha 255; the stored alpha byte at offset
`4 * (y * W + x) + 3` is not read. -/
theorem C18_At_discards_alpha (d : ImageData) (x y : Nat) (hw : 0 < d.ImageWidth)
    (hx : x < d.ImageWidth) (hy : y < d.ImageContents.length / 4 / d.ImageWidth) :
    d.Bounds = some (d.ImageWidth, d.ImageContents.length / 4 / d.ImageWidth) ∧
      4 * (y * d.ImageWidth + x) + 3 < d.ImageContents.length ∧
      d.At x y = some ⟨d.ImageContents.getD (4 * (y * d.ImageWidth + x)) 0,
        d.ImageContents.getD (4 * (y * d.ImageWidth + x) + 1) 0,
        d.ImageContents.getD (4 * (y * d.ImageWidth + x) + 2) 0, 255⟩ := by
  have h1 : (y + 1) * d.ImageWidth ≤ d.ImageContents.length / 4 :=
    (Nat.le_div_iff_mul_le hw).1 hy
  have e1 : (y + 1) * d.ImageWidth = y * d.ImageWidth + d.ImageWidth := by ring
  have hlt : 4 * (y * d.ImageWidth + x) + 3 < d.ImageContents.length := by omega
  refine ⟨?_, hlt, ?_⟩
  · unfold ImageData.Bounds
    simp only
    rw [if_neg (by omega)]
  · unfold ImageData.At
    simp only
    rw [Nat.mul_comm (y * d.ImageWidth + x) 4, getElem?_eq_getD (by omega),
      getElem?_eq_getD (show 4 * (y * d.ImageWidth + x) + 1 < _ by omega),
      getElem?_eq_getD (show 4 * (y * d.ImageWidth + x) + 2 < _ by omega)]
    rfl

/-- C18 at a concrete input: the pixel (1,0) of a 2x1 buffer whose stored alpha
bytes are 100 and 0. -/
theorem C18_At_discards_alpha_witness :
    (ImageData.mk [1, 2, 3, 100, 4, 5, 6, 0] 2).Bounds = some (2, 8 / 4 / 2) ∧
      4 * (0 * 2 + 1) + 3 < 8 ∧
      (ImageData.mk [1, 2, 3, 100, 4, 5, 6, 0] 2).At 1 0 = some ⟨4, 5, 6, 255⟩ :=
  C18_At_discards_alpha ⟨[1, 2, 3, 100, 4, 5, 6, 0], 2⟩ 1 0 (by decide) (by decide) (by decide)

/-- C14: two well-formed buffers of the same width and height whose R bytes
agree at every pixel have identical edge stage outputs, whatever their G, B
and A bytes are. -/
theorem C14_output_depends_on_red_only (img1 img2 : NRGBA) (hwf1 : WellFormed img1)
    (hwf2 : WellFormed img2) (hw : img1.width = img2.width) (hh : img1.height = img2.height)
    (hR : ∀ x, x < img1.width → ∀ y, y < img1.height → img1.red x y = img2.red x y) :
    ∃ out, processImg img1 = some out ∧ processImg img2 = some out := by
  refine ⟨edgeFrame img1, processImg_eq img1 hwf1, ?_⟩
  rw [processImg_eq img2 hwf2]
  refine congrArg some (Eq.symm ?_)
  apply edgeFrame_congr img1 img2 hw hh
  · rw [hwf1.2.1, hwf2.2.1, hw, hh]
  · intro i j hi hj
    apply magAt_congr
    · rw [gx_succ, gx_succ, ← hR (i + 2) (by omega) j (by omega),
        ← hR (i + 2) (by omega) (j + 1) (by omega), ← hR (i + 2) (by omega) (j + 2) (by omega),
        ← hR i (by omega) j (by omega), ← hR i (by omega) (j + 1) (by omega),
        ← hR i (by omega) (j + 2) (by omega)]
    · rw [gy_succ, gy_succ, ← hR i (by omega) (j + 2) (by omega),
        ← hR (i + 1) (by omega) (j + 2) (by omega), ← hR (i + 2) (by omega) (j + 2) (by omega),
        ← hR i (by omega) j (by omega), ← hR (i + 1) (by omega) j (by omega),
        ← hR (i + 2) (by omega) j (by omega)]

/-- C14 at a concrete input: `rightEdge3` and the image with the same R bytes
and all G, B and A bytes replaced. -/
theorem C14_output_depends_on_red_only_witness :
    ∃ out, processImg rightEdge3 = some out ∧
      processImg ⟨[0, 9, 8, 7, 0, 1, 2, 3, 255, 0, 0, 0,
        0, 50, 60, 70, 0, 255, 255, 0, 255, 4, 5, 6,
        0, 0, 0, 0, 0, 200, 100, 1, 255, 11, 12, 13], 3, 3⟩ = some out :=
  C14_output_depends_on_red_only rightEdge3
    ⟨[0, 9, 8, 7, 0, 1, 2, 3, 255, 0, 0, 0,
      0, 50, 60, 70, 0, 255, 255, 0, 255, 4, 5, 6,
      0, 0, 0, 0, 0, 200, 100, 1, 255, 11, 12, 13], 3, 3⟩
    (by decide) (by decide) (by decide) (by decide) (by decide)

/-- C15: for a well-formed buffer and an integer `k` such that adding `k` to
every R, G and B byte keeps it in 0..255, the edge stage output of the
brightened image is identical to the output of the original image. -/
theorem C15_brightness_offset_invariant (img : NRGBA) (hwf : WellFormed img) (k : Int)
    (hk : ∀ i, i < img.Pix.length → i % 4 ≠ 3 →
      0 ≤ (img.byte i : Int) + k ∧ (img.byte i : Int) + k ≤ 255) :
    ∃ out, processImg img = some out ∧ processImg (brighten k img) = some out := by
  refine ⟨edgeFrame img, processImg_eq img hwf, ?_⟩
  rw [processImg_eq _ (brighten_wellFormed k img hwf hk)]
  refine congrArg some ?_
  apply edgeFrame_congr (brighten k img) img rfl rfl (brighten_length k img)
  intro i j hi hj
  have hi' : i + 2 < img.width := hi
  have hj' : j + 2 < img.height := hj
  have r := fun (x y : Nat) (hx : x < img.width) (hy : y < img.height) =>
    brighten_red k img hwf.2.1 hk hx hy
  apply magAt_congr
  · rw [gx_succ, gx_succ, r (i + 2) j (by omega) (by omega),
      r (i + 2) (j + 1) (by omega) (by omega), r (i + 2) (j + 2) (by omega) (by omega),
      r i j (by omega) (by omega), r i (j + 1) (by omega) (by omega),
      r i (j + 2) (by omega) (by omega)]
    ring
  · rw [gy_succ, gy_succ, r i (j + 2) (by omega) (by omega),
      r (i + 1) (j + 2) (by omega) (by omega), r (i + 2) (j + 2) (by omega) (by omega),
      r i j (by omega) (by omega), r (i + 1) j (by omega) (by omega),
      r (i + 2) j (by omega) (by omega)]
    ring

/-- C15 at a concrete input: a 3x3 image with levels 40 and 200, darkened by
40. -/
theorem C15_brightness_offset_invariant_witness :
    ∃ out, processImg ⟨[40, 40, 40, 255, 40, 40, 40, 255, 200, 200, 200, 255,
        40, 40, 40, 255, 40, 40, 40, 255, 200, 200, 200, 255,
        40, 40, 40, 255, 40, 40, 40, 255, 200, 200, 200, 255], 3, 3⟩ = some out ∧
      processImg (brighten (-40) ⟨[40, 40, 40, 255, 40, 40, 40, 255, 200, 200, 200, 255,
        40, 40, 40, 255, 40, 40, 40, 255, 200, 200, 200, 255,
        40, 40, 40, 255, 40, 40, 40, 255, 200, 200, 200, 255], 3, 3⟩) = some out :=
  C15_brightness_offset_invariant ⟨[40, 40, 40, 255, 40, 40, 40, 255, 200, 200, 200, 255,
      40, 40, 40, 255, 40, 40, 40, 255, 200, 200, 200, 255,
      40, 40, 40, 255, 40, 40, 40, 255, 200, 200, 200, 255], 3, 3⟩
    (by decide) (-40) (by decide)

/-- C16 (amended): the gray byte `v` that grayscale writes for the pixel
`(r, g, b, a)` never exceeds `max(r, g, b)`, so it never overflows 255; it is
at least `min(r, g, b)` whenever the three channels are not all equal; and for
`r = g = b` it is that common value or one less. -/
theorem C16_gray_within_channel_range (img : NRGBA) (hwf : WellFormed img)
    (x y r g b a : Nat) (hx : x < img.width) (hy : y < img.height)
    (hpx : pixelAt img.Pix img.width x y = [r, g, b, a]) :
    ∃ out v, grayscale img = some out ∧ pixelAt out.Pix out.width x y = [v, v, v, 255] ∧
      v ≤ max r (max g b) ∧ v ≤ 255 ∧
      (¬(r = g ∧ g = b) → min r (min g b) ≤ v) ∧
      (r = g ∧ g = b → v = r ∨ v + 1 = r) := by
  rw [pixelAt_Pix] at hpx
  simp only [List.cons.injEq, and_true] at hpx
  obtain ⟨h0, h1, h2, -⟩ := hpx
  have b0 := byte_lt img hwf (4 * (y * img.width + x))
  have b1 := byte_lt img hwf (4 * (y * img.width + x) + 1)
  have b2 := byte_lt img hwf (4 * (y * img.width + x) + 2)
  rw [h0] at b0
  rw [h1] at b1
  rw [h2] at b2
  have hn := grayByte_near b0 b1 b2
  refine ⟨⟨grayPix img, img.width, img.height⟩, grayByte r g b, grayscale_eq img hwf, ?_, ?_, ?_,
    ?_, ?_⟩
  · show pixelAt (grayPix img) img.width x y = _
    rw [pixelAt_grayPix img hwf hx hy, h0, h1, h2]
  · omega
  · omega
  · intro hne
    omega
  · rintro ⟨rfl, rfl⟩
    omega

/-- C16 at a concrete input: the 1x1 image with the pixel (10,200,30,0). -/
theorem C16_gray_within_channel_range_witness :
    ∃ out v, grayscale ⟨[10, 200, 30, 0], 1, 1⟩ = some out ∧
      pixelAt out.Pix out.width 0 0 = [v, v, v, 255] ∧
      v ≤ max 10 (max 200 30) ∧ v ≤ 255 ∧
      (¬(10 = 200 ∧ 200 = 30) → min 10 (min 200 30) ≤ v) ∧
      (10 = 200 ∧ 200 = 30 → v = 10 ∨ v + 1 = 10) :=
  C16_gray_within_channel_range ⟨[10, 200, 30, 0], 1, 1⟩ (by decide) 0 0 10 200 30 0
    (by decide) (by decide) (by decide)

/-- C16 as stated fails: the pixel (1,1,1,255) is mapped to gray 0, which is
below `min(1, 1, 1) = 1` and is not the common value 1. -/
theorem C16_counterexample :
    grayscale ⟨[1, 1, 1, 255], 1, 1⟩ = some ⟨[0, 0, 0, 255], 1, 1⟩ ∧
      grayByte 1 1 1 = 0 ∧ ¬(min 1 (min 1 1) ≤ grayByte 1 1 1) := by
  decide

/-- C17 (amended): for every well-formed `W` x `H` buffer, the buffer that the
loops of the edge stage compute on the transposed image (the `H` x `W` buffer
whose pixel `(y, x)` is the pixel `(x, y)` of the image) is exactly the
transpose of the edge stage output on the image, and when `H > 0` the edge
stage completes on the transposed image and returns that transpose. -/
theorem C17_commutes_with_transposition (img : NRGBA) (hwf : WellFormed img) :
    (∀ x y, x < img.width → y < img.height →
      pixelAt (transpose img).Pix (transpose img).width y x = pixelAt img.Pix img.width x y) ∧
    ∃ out, processImg img = some out ∧
      convolve (transpose img) = some (transposeBuf out img.width img.height) ∧
      (0 < img.height →
        processImg (transpose img) = some (transposeBuf out img.width img.height)) ∧
      ∀ x y, x < img.width → y < img.height →
        pixelAt (transposeBuf out img.width img.height) img.height y x =
          pixelAt out img.width x y := by
  have hlenT : (transpose img).Pix.length = 4 * (transpose img).width * (transpose img).height := by
    show (transposeBuf img.Pix img.width img.height).length = 4 * img.height * img.width
    rw [transposeBuf_length, hwf.2.1]
    ring
  refine ⟨fun x y hx hy => pixelAt_transposeBuf img.Pix hwf.2.1 hx hy, edgeFrame img,
    processImg_eq img hwf, ?_, ?_, ?_⟩
  · rw [convolve_eq _ hlenT, edgeFrame_transpose img hwf.2.1]
  · intro hh
    rw [processImg_eq _ (transpose_wellFormed img hwf hh), edgeFrame_transpose img hwf.2.1]
  · intro x y hx hy
    exact pixelAt_transposeBuf (edgeFrame img) ((edgeFrame_length img).trans hwf.2.1) hx hy

/-- C17 at a concrete input: the 5x4 image with a white line in column 2. -/
theorem C17_commutes_with_transposition_witness :
    (∀ x y, x < (verticalLine 5 4 2).width → y < (verticalLine 5 4 2).height →
      pixelAt (transpose (verticalLine 5 4 2)).Pix (transpose (verticalLine 5 4 2)).width y x =
        pixelAt (verticalLine 5 4 2).Pix (verticalLine 5 4 2).width x y) ∧
    ∃ out, processImg (verticalLine 5 4 2) = some out ∧
      convolve (transpose (verticalLine 5 4 2)) =
        some (transposeBuf out (verticalLine 5 4 2).width (verticalLine 5 4 2).height) ∧
      (0 < (verticalLine 5 4 2).height →
        processImg (transpose (verticalLine 5 4 2)) =
          some (transposeBuf out (verticalLine 5 4 2).width (verticalLine 5 4 2).height)) ∧
      ∀ x y, x < (verticalLine 5 4 2).width → y < (verticalLine 5 4 2).height →
        pixelAt (transposeBuf out (verticalLine 5 4 2).width (verticalLine 5 4 2).height)
            (verticalLine 5 4 2).height y x =
          pixelAt out (verticalLine 5 4 2).width x y :=
  C17_commutes_with_transposition (verticalLine 5 4 2) (by decide)

/-- C17 as stated fails for height 0: the empty image of width 1 and height 0
is well formed and the edge stage returns the empty buffer for it, but on its
transpose, of width 0, the edge stage does not complete (`Bounds()` divides by
the width). -/
theorem C17_counterexample :
    WellFormed ⟨[], 1, 0⟩ ∧ processImg ⟨[], 1, 0⟩ = some [] ∧
      transpose ⟨[], 1, 0⟩ = ⟨[], 0, 1⟩ ∧ processImg (transpose ⟨[], 1, 0⟩) = none := by
  decide

end EdgeDetection
